import Mathlib

/-!
Verification development for the social-network-pathfinding repository.

The definitions below are a shallow embedding of the Python sources:

* src/pathfinding/bidirectional_bfs.py  (PathResult, BidirectionalBFS)
* src/database/graph_database.py        (GraphDatabase)
* src/database/sharding.py              (GraphShard, DistributedGraphSharding)
* src/cache/lru_cache.py                (LRUCache, PathfindingCache)
* src/pathfinding/pathfinding_service.py (PathfindingService)

Modelling conventions:

* Python dicts are association lists (insertion ordered, unique keys);
  `dict.get(k)` / `dict.get(k, d)` are `alookup` combined with `Option.getD`.
* Python sets are lists with membership-guarded insertion (`setInsert`);
  iteration order of a set is unspecified in Python, so the embedding fixes
  the insertion order of the modelled lists.
* Wall-clock quantities (`execution_time_ms`, timestamps, TTL expiry) are
  outside the pure model and are omitted; no claim below depends on them.
  Cache entries are therefore modelled as non-expired.
* External library calls (`hashlib.md5`, the interpreter string `hash`) are
  parameters of the embedding: any function of the right type may be
  substituted for them.
-/

namespace SocialPath

/-! ### Generic helpers: dicts, sets, Python string primitives -/

/-- Lookup in an association list: the model of Python `d[k]` / `d.get(k)`.
Dicts are association lists in insertion order with unique keys; all the
update operations below preserve key uniqueness, and lookups read the
first occurrence. -/
def alookup {κ α : Type} [DecidableEq κ] : List (κ × α) → κ → Option α
  | [], _ => none
  | p :: l, k => if p.1 = k then some p.2 else alookup l k

/-- Python `k in d` for a dict `d`. -/
def containsKey {κ α : Type} [DecidableEq κ] (l : List (κ × α)) (k : κ) :
    Bool :=
  (alookup l k).isSome

/-- Python `set.add`: inserts only if absent (set semantics). -/
def setInsert {α : Type} [DecidableEq α] (l : List α) (x : α) : List α :=
  if x ∈ l then l else l ++ [x]

/-- Python `set.remove` / `set.discard` on the list model of a set. -/
def setRemove {α : Type} [DecidableEq α] (l : List α) (x : α) : List α :=
  l.filter (fun y => y ≠ x)

/-- Mutate the value stored at `k` in place, starting from `dflt` if `k`
is absent (then the new entry lands at the end, where Python dicts append
fresh keys).  This models both `defaultdict` access followed by mutation
and `dict.setdefault(k, dflt)` followed by mutation. -/
def updateAt {κ α : Type} [DecidableEq κ] :
    List (κ × α) → κ → α → (α → α) → List (κ × α)
  | [], k, dflt, f => [(k, f dflt)]
  | p :: l, k, dflt, f =>
    if p.1 = k then (p.1, f p.2) :: l else p :: updateAt l k dflt f

/-- Python dict assignment `d[k] = v`: overwrite in place, or append. -/
def dictSet {κ α : Type} [DecidableEq κ] :
    List (κ × α) → κ → α → List (κ × α)
  | [], k, v => [(k, v)]
  | p :: l, k, v => if p.1 = k then (p.1, v) :: l else p :: dictSet l k v

/-- Mutate the value stored at `k` in place; no-op when `k` is absent
(Python raises `KeyError` there — its uses below are all on states where
the key is present). -/
def modifyAt {κ α : Type} [DecidableEq κ] :
    List (κ × α) → κ → (α → α) → List (κ × α)
  | [], _, _ => []
  | p :: l, k, f => if p.1 = k then (p.1, f p.2) :: l else p :: modifyAt l k f

/-- Python string `<` (lexicographic over code points), on `String.data`. -/
def lexLt : List Char → List Char → Bool
  | [], [] => false
  | [], _ :: _ => true
  | _ :: _, [] => false
  | c :: cs, d :: ds =>
    if c.toNat < d.toNat then true
    else if d.toNat < c.toNat then false
    else lexLt cs ds

/-- Python `a < b` on strings. -/
def strLt (a b : String) : Bool := lexLt a.data b.data

/-! ### src/pathfinding/bidirectional_bfs.py -/

/-- The `PathResult` dataclass.  `execution_time_ms` (wall clock) is omitted. -/
structure PathResult where
  path : Option (List String)
  distance : Int
  nodesExplored : Nat
  found : Bool
deriving DecidableEq, Repr

/-- Python truthiness of the `path` field: `None` and `[]` are falsy. -/
def pathTruthy : Option (List String) → Bool
  | none => false
  | some l => !l.isEmpty

/-- Constructing a `PathResult` runs `__post_init__`, which overwrites the
`distance` argument: `len(path) - 1` if `path` is truthy, else `-1`. -/
def mkPathResult (path : Option (List String)) (distance : Int)
    (nodes : Nat) (found : Bool) : PathResult :=
  { path := path
    distance :=
      if pathTruthy path then
        (match path with
          | some l => (l.length : Int) - 1
          | none => -1)
      else -1
    nodesExplored := nodes
    found := found }

/-- The duck-typed graph dependency of `BidirectionalBFS`: any object with
`user_exists` and `get_connections`.  `get_connections` returns a fresh
collection each call; the embedding fixes an iteration order for it. -/
structure GraphIntf where
  userExists : String → Bool
  getConnections : String → List String

/-- `self.max_depth = 6` (six degrees of separation). -/
def maxDepth : Nat := 6

/-- Result of one call to `_expand_frontier`: the returned meeting point plus
the final state of the queue, the visited (parent) map and the depth map,
which the Python code mutates in place. -/
structure ExpandResult where
  meeting : Option String
  queue : List String
  visited : List (String × Option String)
  depths : List (String × Nat)
deriving Repr

/-- The inner `for neighbor in neighbors` loop of `_expand_frontier`.
Returns `(meeting, visited, depths, next_queue)`; on a meeting point it
returns immediately with the maps as mutated so far. -/
def procNeighbors (u : String) (du : Nat) :
    List String → List (String × Option String) → List (String × Nat) →
    List String → List (String × Option String) →
    Option String × List (String × Option String) × List (String × Nat) × List String
  | [], visited, depths, nextQ, _ => (none, visited, depths, nextQ)
  | w :: ws, visited, depths, nextQ, other =>
    if containsKey other w then (some w, visited, depths, nextQ)
    else if containsKey visited w then
      procNeighbors u du ws visited depths nextQ other
    else
      procNeighbors u du ws (visited ++ [(w, some u)])
        (depths ++ [(w, du + 1)]) (nextQ ++ [w]) other

/-- The `while queue` loop of `_expand_frontier`.  A vertex whose recorded
depth is at least `max_depth // 2` is skipped.  (`depths[current_user]` is
modelled with default `0`, matching `depths.get(current_user, 0)`; every
enqueued vertex has a depth entry, so the default is never consulted on
states the algorithm actually builds.) -/
def expandRest (g : GraphIntf) :
    List String → List (String × Option String) → List (String × Nat) →
    List String → List (String × Option String) → ExpandResult
  | [], visited, depths, nextQ, _ =>
    { meeting := none, queue := nextQ, visited := visited, depths := depths }
  | u :: rest, visited, depths, nextQ, other =>
    if (alookup depths u).getD 0 ≥ maxDepth / 2 then
      expandRest g rest visited depths nextQ other
    else
      let du := (alookup depths u).getD 0
      match procNeighbors u du (g.getConnections u) visited depths nextQ other with
      | (some m, v', d', _) =>
        { meeting := some m, queue := rest, visited := v', depths := d' }
      | (none, v', d', nq') => expandRest g rest v' d' nq' other

/-- `_expand_frontier`: drains the queue one full level, then the queue
becomes the collected next level (`queue.extend(next_queue)` after the
drain).  The early `if not queue: return None` coincides with the base
case. -/
def expandFrontier (g : GraphIntf) (queue : List String)
    (visited : List (String × Option String)) (depths : List (String × Nat))
    (other : List (String × Option String)) : ExpandResult :=
  expandRest g queue visited depths [] other

/-- Python `visited.get(current)`: a missing key and a stored `None` (the
root's parent) are both `None`. -/
def pyGet (m : List (String × Option String)) (k : String) : Option String :=
  match alookup m k with
  | none => none
  | some o => o

/-- The `while current is not None` walk in `_reconstruct_path`, with fuel.
On the acyclic parent maps the search builds, `length + 1` fuel always
suffices to finish the walk, so the fuel never truncates it. -/
def walkChain : Nat → List (String × Option String) → String → List String
  | 0, _, _ => []
  | fuel + 1, m, cur =>
    cur :: (match pyGet m cur with
      | none => []
      | some p => walkChain fuel m p)

/-- `_reconstruct_path`: walk `forward_visited` from the meeting point and
reverse; walk `backward_visited` from the meeting point's backward parent;
concatenate. -/
def reconstructPath (fw bw : List (String × Option String)) (m : String) :
    List String :=
  let fwd := (walkChain (fw.length + 1) fw m).reverse
  let bwd :=
    match pyGet bw m with
    | none => []
    | some c => walkChain (bw.length + 1) bw c
  fwd ++ bwd

/-- The `while forward_queue or backward_queue` loop of
`find_shortest_path`.  `fuel` counts the iterations the
`current_depth > max_depth` break still allows: each iteration increments
`current_depth` and breaks once it exceeds `max_depth`, so with
`current_depth` starting at `0` exactly `max_depth` continuations remain
after the first iteration; the iteration at `fuel = 0` still expands (the
break is checked after the expansion). -/
def bfsLoop (g : GraphIntf) : Nat → List String → List String →
    List (String × Option String) → List (String × Option String) →
    List (String × Nat) → List (String × Nat) → Nat → PathResult
  | fuel, fq, bq, fv, bv, fd, bd, nodes =>
    if fq.isEmpty && bq.isEmpty then mkPathResult none (-1) nodes false
    else if fq.length ≤ bq.length then
      let r := expandFrontier g fq fv fd bv
      match r.meeting with
      | some m =>
        let p := reconstructPath r.visited bv m
        mkPathResult (some p) ((p.length : Int) - 1) nodes true
      | none =>
        let nodes' := nodes + r.queue.length
        match fuel with
        | 0 => mkPathResult none (-1) nodes' false
        | fuel' + 1 => bfsLoop g fuel' r.queue bq r.visited bv r.depths bd nodes'
    else
      let r := expandFrontier g bq bv bd fv
      match r.meeting with
      | some m =>
        let p := reconstructPath fv r.visited m
        mkPathResult (some p) ((p.length : Int) - 1) nodes true
      | none =>
        let nodes' := nodes + r.queue.length
        match fuel with
        | 0 => mkPathResult none (-1) nodes' false
        | fuel' + 1 => bfsLoop g fuel' fq r.queue fv r.visited fd r.depths nodes'

/-- `BidirectionalBFS.find_shortest_path`.  The `start_user == target_user`
check precedes the existence check; then both endpoints are checked with
`user_exists`; then the bidirectional loop runs with both roots at depth
`0`. -/
def findShortestPath (g : GraphIntf) (s t : String) : PathResult :=
  if s = t then mkPathResult (some [s]) 0 1 true
  else if !g.userExists s || !g.userExists t then
    mkPathResult none (-1) 0 false
  else
    bfsLoop g maxDepth [s] [t] [(s, none)] [(t, none)] [(s, 0)] [(t, 0)] 0

/-! Concrete query graphs for the spec scenarios. -/

/-- Scenario A: users `u1`, `u2`, single edge. -/
def scenarioA : GraphIntf :=
  { userExists := fun u => u == "u1" || u == "u2"
    getConnections := fun u =>
      if u = "u1" then ["u2"] else if u = "u2" then ["u1"] else [] }

/-- Scenario C: a simple path of eight users `u1 - u2 - … - u8`. -/
def chainAdj : List (String × List String) :=
  [("u1", ["u2"]), ("u2", ["u1", "u3"]), ("u3", ["u2", "u4"]),
   ("u4", ["u3", "u5"]), ("u5", ["u4", "u6"]), ("u6", ["u5", "u7"]),
   ("u7", ["u6", "u8"]), ("u8", ["u7"])]

/-- Scenario C as a `GraphIntf`. -/
def scenarioC : GraphIntf :=
  { userExists := fun u => containsKey chainAdj u
    getConnections := fun u => (alookup chainAdj u).getD [] }

/-- A graph with no users at all. -/
def emptyGraph : GraphIntf :=
  { userExists := fun _ => false, getConnections := fun _ => [] }

/-! ### Python string primitives used by the cache layer -/

/-- Python `str.startswith`, on character lists: does the second list start
with the first? -/
def startsWithB : List Char → List Char → Bool
  | [], _ => true
  | _ :: _, [] => false
  | c :: cs, d :: ds => c = d && startsWithB cs ds

/-- Python substring containment `needle in hay`, on character lists. -/
def containsSub (needle : List Char) : List Char → Bool
  | [] => startsWithB needle []
  | c :: t => startsWithB needle (c :: t) || containsSub needle t

/-! ### src/database/sharding.py -/

/-- The external hash functions the sharding layer calls.  `md5Bytes`
stands for `hashlib.md5(uid.encode()).digest()`, the sixteen digest bytes
in order; `pyHash` stands for the interpreter's builtin `hash` on strings.
Both are opaque library calls, so the embedding takes them as parameters. -/
structure ExternalHashes where
  md5Bytes : String → List Nat
  pyHash : String → Int

/-- One lowercase hex digit, as `hexdigest` prints it. -/
def hexChar (n : Nat) : Char :=
  if n < 10 then Char.ofNat (48 + n) else Char.ofNat (87 + n)

/-- `hexdigest()`: two lowercase hex digits per byte, in digest order. -/
def hexDigest (bs : List Nat) : List Char :=
  bs.flatMap (fun b => [hexChar (b / 16), hexChar (b % 16)])

/-- The value of one hex digit, as Python `int(s, 16)` reads it (digits,
then uppercase letters, then lowercase letters). -/
def hexVal (c : Char) : Nat :=
  if c.toNat ≤ 57 then c.toNat - 48
  else if c.toNat ≤ 70 then c.toNat - 55
  else c.toNat - 87

/-- Python `int(s, 16)` on a hex string: most significant digit first. -/
def intOfHex (cs : List Char) : Nat :=
  cs.foldl (fun acc c => 16 * acc + hexVal c) 0

/-- A byte list read as a big-endian unsigned integer.  This is the spec's
wording of the shard hash ("MD5 digest interpreted as a big-endian unsigned
integer"), stated independently of the `hexdigest` route the code takes. -/
def bigEndianVal (bs : List Nat) : Nat :=
  bs.foldl (fun acc b => 256 * acc + b) 0

/-- `ShardingStrategy` enum. -/
inductive ShardingStrategy
  | hashBased
  | rangeBased
  | edgeCut
  | vertexCut
deriving DecidableEq, Repr

/-- `GraphShard`.  The `users` dict is modelled by its key list (the stored
`User` objects are never read by the operations under study);
`local_edges` maps a user to a set of user ids, `remote_edges` to a set of
`(user_id, target_shard)` pairs. -/
structure GraphShard where
  shardId : Nat
  users : List String
  localEdges : List (String × List String)
  remoteEdges : List (String × List (String × Nat))
deriving DecidableEq, Repr

/-- `GraphShard.add_edge`: a `None` target shard or one equal to
`self.shard_id` stores a local edge; otherwise a remote edge tagged with
the target shard.  Both sides use `setdefault`-plus-`set.add`. -/
def shardAddEdge (sh : GraphShard) (fromUser toUser : String)
    (targetShard : Option Nat) : GraphShard :=
  match targetShard with
  | none =>
    { sh with localEdges :=
        updateAt sh.localEdges fromUser [] (fun s => setInsert s toUser) }
  | some t =>
    if t = sh.shardId then
      { sh with localEdges :=
          updateAt sh.localEdges fromUser [] (fun s => setInsert s toUser) }
    else
      { sh with remoteEdges :=
          updateAt sh.remoteEdges fromUser [] (fun s => setInsert s (toUser, t)) }

/-- `DistributedGraphSharding` state: shard count, strategy, and the
`shard_id → GraphShard` dict. -/
structure ShardingState where
  numShards : Nat
  strategy : ShardingStrategy
  shards : List (Nat × GraphShard)
deriving DecidableEq, Repr

/-- The `DistributedGraphSharding.__init__` shard table (strategy defaults
to `HASH_BASED`). -/
def mkSharding (numShards : Nat) : ShardingState :=
  { numShards := numShards
    strategy := ShardingStrategy.hashBased
    shards := (List.range numShards).map (fun i =>
      (i, { shardId := i, users := [], localEdges := [], remoteEdges := [] })) }

/-- `_hash_user_id`:
`int(hashlib.md5(user_id.encode()).hexdigest(), 16) % self.num_shards`. -/
def hashUserId (ext : ExternalHashes) (numShards : Nat) (uid : String) : Nat :=
  intOfHex (hexDigest (ext.md5Bytes uid)) % numShards

/-- `get_shard_for_user`: hash-based strategies use `_hash_user_id`;
range-based uses `abs(hash(user_id)) % num_shards`. -/
def getShardForUser (ext : ExternalHashes) (strategy : ShardingStrategy)
    (numShards : Nat) (uid : String) : Nat :=
  match strategy with
  | ShardingStrategy.hashBased => hashUserId ext numShards uid
  | ShardingStrategy.rangeBased => (ext.pyHash uid).natAbs % numShards
  | _ => hashUserId ext numShards uid

/-- In-place mutation of `self.shards[i]`.  (On states built by
`mkSharding` the key is always present; Python would raise `KeyError`
otherwise, which is unreachable because shard indices are computed modulo
the shard count.) -/
def updateShard (st : ShardingState) (i : Nat)
    (f : GraphShard → GraphShard) : ShardingState :=
  { st with shards := modifyAt st.shards i f }

/-- `DistributedGraphSharding.add_connection`: add the forward edge on the
from-shard, then the reverse edge on the to-shard, each tagged with the
other endpoint's shard. -/
def shardingAddConnection (ext : ExternalHashes) (st : ShardingState)
    (a b : String) : ShardingState :=
  let fromShard := getShardForUser ext st.strategy st.numShards a
  let toShard := getShardForUser ext st.strategy st.numShards b
  let st1 := updateShard st fromShard
    (fun sh => shardAddEdge sh a b (some toShard))
  updateShard st1 toShard (fun sh => shardAddEdge sh b a (some fromShard))

/-- Per-shard edge totals from `get_shard_stats`:
`(users, local_edges, remote_edges, total_edges)` per shard id. -/
def shardStats (st : ShardingState) : List (Nat × Nat × Nat × Nat × Nat) :=
  st.shards.map (fun p =>
    let localN := (p.2.localEdges.map (fun q => q.2.length)).sum
    let remoteN := (p.2.remoteEdges.map (fun q => q.2.length)).sum
    (p.1, p.2.users.length, localN, remoteN, localN + remoteN))

/-- The `(cross_shard_edges, total_edges)` pair accumulated by
`get_cross_shard_ratio`; the returned float is
`cross / total` (`0.0` when `total = 0`), so it is determined by this
pair.  Note the loops run over `shard.users`. -/
def crossShardCounts (st : ShardingState) : Nat × Nat :=
  st.shards.foldl (fun acc p =>
    p.2.users.foldl (fun acc2 uid =>
      let localN := ((alookup p.2.localEdges uid).getD []).length
      let remoteN := ((alookup p.2.remoteEdges uid).getD []).length
      (acc2.1 + remoteN, acc2.2 + (localN + remoteN))) acc) (0, 0)

/-! ### src/database/graph_database.py -/

/-- `GraphDatabase` state.  `_users` maps a user id to its record, of which
only the mutable `connections` set is read or written by the operations
under study (username, email, `created_at`, `is_active` are write-only
payload); `_connections` is a `defaultdict(set)`.  The `query_count`
metric (incremented by reads) is not modelled; `connection_count` is. -/
structure GraphDatabase where
  numShards : Nat
  sharding : ShardingState
  connectionCount : Nat
  users : List (String × List String)
  connections : List (String × List String)
deriving DecidableEq, Repr

/-- `GraphDatabase.__init__`. -/
def mkGraphDatabase (numShards : Nat) : GraphDatabase :=
  { numShards := numShards
    sharding := mkSharding numShards
    connectionCount := 0
    users := []
    connections := [] }

/-- `GraphDatabase.add_user` with an explicit `user_id` (the UUID minting
for an omitted id is external randomness): unconditionally overwrites the
user record with a fresh one whose `connections` set is empty.  The call
into the sharding system is commented out in the source. -/
def gdbAddUser (db : GraphDatabase) (uid : String) : GraphDatabase :=
  { db with users := dictSet db.users uid [] }

/-- `GraphDatabase.add_connection`: validates that both users exist and are
distinct, then adds both directions to `_connections` and to the user
records, forwards to `sharding.add_connection`, and increments
`connection_count`.  These steps run even when the edge is already
present, and the method then still returns `True`. -/
def gdbAddConnection (ext : ExternalHashes) (db : GraphDatabase)
    (a b : String) : Bool × GraphDatabase :=
  if ¬ (containsKey db.users a && containsKey db.users b) then (false, db)
  else if a = b then (false, db)
  else
    let conns := updateAt (updateAt db.connections a [] (fun s => setInsert s b))
      b [] (fun s => setInsert s a)
    let users := updateAt (updateAt db.users a [] (fun s => setInsert s b))
      b [] (fun s => setInsert s a)
    (true,
      { db with
        connections := conns
        users := users
        sharding := shardingAddConnection ext db.sharding a b
        connectionCount := db.connectionCount + 1 })

/-- `GraphDatabase.remove_connection`: returns `False` unless `a` has a
`_connections` entry containing `b`; on success removes both directions
from `_connections` and the user records.  It never touches the sharding
system and never decrements `connection_count`.  (The symmetric removals
index `_users` and the reverse set directly; on the symmetric states the
database actually builds those entries exist, which the total list model
reflects.) -/
def gdbRemoveConnection (db : GraphDatabase) (a b : String) :
    Bool × GraphDatabase :=
  if ¬ containsKey db.connections a then (false, db)
  else if b ∈ (alookup db.connections a).getD [] then
    let conns := updateAt (updateAt db.connections a [] (fun s => setRemove s b))
      b [] (fun s => setRemove s a)
    let users := updateAt (updateAt db.users a [] (fun s => setRemove s b))
      b [] (fun s => setRemove s a)
    (true, { db with connections := conns, users := users })
  else (false, db)

/-- `GraphDatabase.user_exists`. -/
def gdbUserExists (db : GraphDatabase) (uid : String) : Bool :=
  containsKey db.users uid

/-- `GraphDatabase.get_connections` (a copy of the stored set; the
`query_count` increment is a metric and is not modelled). -/
def gdbGetConnections (db : GraphDatabase) (uid : String) : List String :=
  (alookup db.connections uid).getD []

/-! ### src/cache/lru_cache.py (PathfindingCache over LRUCache) -/

/-- The slice of a cached path record that the cache layer itself reads and
writes: `path`, `start_user`, `target_user`, `found`.  The remaining keys
of the response dict (timings, timestamps, counters) are payload the cache
copies around untouched. -/
structure CacheRecord where
  found : Bool
  path : Option (List String)
  startUser : String
  targetUser : String
deriving DecidableEq, Repr

/-- The path cache: the underlying `LRUCache` dict in insertion order with
its capacity.  TTL and the periodic sweep are wall-clock behaviour and are
outside the pure model: entries are modelled as non-expired, which only
removes misses and is the reading under which the symmetry and
invalidation claims are stated. -/
structure PathCache where
  maxSize : Nat
  entries : List (String × CacheRecord)
deriving DecidableEq, Repr

/-- `sorted([start_user, target_user])` for two strings. -/
def sortPair (a b : String) : String × String :=
  if strLt b a then (b, a) else (a, b)

/-- `_create_path_key`: `"path:" + min + ":" + max`
(order-independent). -/
def createPathKey (a b : String) : String :=
  let p := sortPair a b
  "path:" ++ p.1 ++ ":" ++ p.2

/-- `LRUCache.put`: delete any existing entry for the key, insert at the
most-recently-used end, then evict from the least-recently-used end while
over capacity. -/
def cachePut (c : PathCache) (k : String) (v : CacheRecord) : PathCache :=
  let l1 := c.entries.filter (fun p => p.1 ≠ k)
  let l2 := l1 ++ [(k, v)]
  { c with entries :=
      if l2.length ≤ c.maxSize then l2 else l2.drop (l2.length - c.maxSize) }

/-- `PathfindingCache.get_path`: look up the order-independent key; if the
entry's stored `start_user` differs from the queried start and the stored
path is truthy, return a copy with the path reversed and start/target
swapped (the stored record itself is not modified — the lookup is a pure
read here). -/
def getPath (c : PathCache) (a b : String) : Option CacheRecord :=
  match alookup c.entries (createPathKey a b) with
  | none => none
  | some r =>
    if a ≠ r.startUser then
      if pathTruthy r.path then
        some { r with
               path := r.path.map List.reverse
               startUser := r.targetUser
               targetUser := r.startUser }
      else some r
    else some r

/-- `PathfindingCache.cache_path`: augment the record with
`start_user := a`, `target_user := b` (plus a wall-clock `cached_at`,
outside the model) and `put` it under the order-independent key. -/
def cachePath (c : PathCache) (a b : String) (r : CacheRecord) : PathCache :=
  cachePut c (createPathKey a b) { r with startUser := a, targetUser := b }

/-- `PathfindingCache.invalidate_user_paths`: delete every key that starts
with `"path:"` and contains `user_id` as a substring. -/
def invalidateUserPaths (c : PathCache) (u : String) : PathCache :=
  { c with entries := c.entries.filter (fun p =>
      !(startsWithB "path:".data p.1.data && containsSub u.data p.1.data)) }

/-! ### src/pathfinding/pathfinding_service.py -/

/-- The service state the mutation endpoints touch: the graph database and
the path cache, plus the `enable_caching` flag (`True` as constructed, and
never mutated).  The query metrics dict is wall-clock/counter bookkeeping
not read by the operations under study. -/
structure PathfindingService where
  gdb : GraphDatabase
  cache : PathCache
  enableCaching : Bool
deriving DecidableEq, Repr

/-- `PathfindingService.add_connection`: forward to the database; on
success (and with caching enabled) invalidate all cached paths involving
each endpoint. -/
def serviceAddConnection (ext : ExternalHashes) (s : PathfindingService)
    (a b : String) : Bool × PathfindingService :=
  let r := gdbAddConnection ext s.gdb a b
  if r.1 && s.enableCaching then
    (r.1, { s with
            gdb := r.2
            cache := invalidateUserPaths (invalidateUserPaths s.cache a) b })
  else (r.1, { s with gdb := r.2 })

/-- `PathfindingService.remove_connection`: symmetric to
`add_connection`. -/
def serviceRemoveConnection (s : PathfindingService) (a b : String) :
    Bool × PathfindingService :=
  let r := gdbRemoveConnection s.gdb a b
  if r.1 && s.enableCaching then
    (r.1, { s with
            gdb := r.2
            cache := invalidateUserPaths (invalidateUserPaths s.cache a) b })
  else (r.1, { s with gdb := r.2 })

/-! ### Verification-side predicates and concrete fixtures -/

/-- The ball of radius `n` around `s` along the adjacency the search
observes: all vertices reachable from `s` by following `getConnections`
at most `n` times (with repetitions; only membership matters).  This is a
graph-side reachability predicate, defined without reference to the
search code: `t ∈ reachWithin g n s` says a path of at most `n` edges
leads from `s` to `t`. -/
def reachWithin (g : GraphIntf) : Nat → String → List String
  | 0, s => [s]
  | n + 1, s =>
    reachWithin g n s ++ (reachWithin g n s).flatMap g.getConnections

/-- Invariant of one half-search: the depth map covers exactly the visited
map, and every visited vertex carries a recorded depth at most
`⌊max_depth / 2⌋ = 3` at which it is reachable from that half's root. -/
def SideInv (g : GraphIntf) (root : String)
    (vis : List (String × Option String)) (dep : List (String × Nat)) :
    Prop :=
  (∀ v, containsKey dep v = true → containsKey vis v = true) ∧
  (∀ v, containsKey vis v = true →
    ∃ d, alookup dep v = some d ∧ d ≤ 3 ∧ v ∈ reachWithin g d root)

/-- A graph given by an explicit undirected edge list: the adjacency of
`u` collects the other endpoint of every edge touching `u`, so symmetry
holds by construction (invariant I1, which `GraphDatabase` maintains). -/
def symGraph (edges : List (String × String)) : GraphIntf :=
  { userExists := fun u => edges.any (fun e => e.1 = u || e.2 = u)
    getConnections := fun u =>
      (edges.filter (fun e => e.1 = u)).map (fun e => e.2) ++
      (edges.filter (fun e => e.2 = u)).map (fun e => e.1) }

/-- The seven undirected edges of the eight-user chain `u1 - … - u8`. -/
def chainEdges : List (String × String) :=
  [("u1", "u2"), ("u2", "u3"), ("u3", "u4"), ("u4", "u5"),
   ("u5", "u6"), ("u6", "u7"), ("u7", "u8")]

/-- The eight-user chain as a `symGraph`, for exercising the
unreachability semantics on a provably symmetric adjacency. -/
def chainSym : GraphIntf := symGraph chainEdges

/-- The edge entry `shardAddEdge sh x y t` creates: a local entry when the
target shard is absent or equals this shard's id, a remote entry tagged
with the target shard otherwise. -/
def hasEdgeEntry (sh : GraphShard) (x y : String) (t : Option Nat) : Prop :=
  match t with
  | none => y ∈ (alookup sh.localEdges x).getD []
  | some ts =>
    if ts = sh.shardId then y ∈ (alookup sh.localEdges x).getD []
    else (y, ts) ∈ (alookup sh.remoteEdges x).getD []

/-- Fixed external hashes for concrete runs (the embedding is parametric in
them, so any choice exercises the code paths). -/
def extZero : ExternalHashes := { md5Bytes := fun _ => [0], pyHash := fun _ => 0 }

/-- A fixed three-byte digest, for the shard-hash witness. -/
def extFixed : ExternalHashes :=
  { md5Bytes := fun _ => [171, 5, 255], pyHash := fun _ => 0 }

/-- A database holding exactly the users `u1` and `u2`, no edges. -/
def dbPair : GraphDatabase := gdbAddUser (gdbAddUser (mkGraphDatabase 4) "u1") "u2"

/-- `dbPair` after `add_connection("u1","u2")`. -/
def dbPairConnected : GraphDatabase := (gdbAddConnection extZero dbPair "u1" "u2").2

/-- A cached record for the pair `(u1, u3)`. -/
def recU13 : CacheRecord :=
  { found := true, path := some ["u1", "x", "u3"], startUser := "u1", targetUser := "u3" }

/-- A cache holding one entry, keyed for the pair `(u1, u3)`. -/
def cacheU13 : PathCache :=
  { maxSize := 50000, entries := [(createPathKey "u1" "u3", recU13)] }

/-- Service over `dbPair` (edge absent, so `add_connection` succeeds). -/
def svcAdd : PathfindingService :=
  { gdb := dbPair, cache := cacheU13, enableCaching := true }

/-- Service over `dbPairConnected` (edge present, so `remove_connection`
succeeds). -/
def svcRem : PathfindingService :=
  { gdb := dbPairConnected, cache := cacheU13, enableCaching := true }

/-- A record whose path is not a palindrome, cached for the equal pair
`("u","u")` through `cache_path` itself. -/
def cacheSelfPair : PathCache :=
  cachePath { maxSize := 10, entries := [] } "u" "u"
    { found := true, path := some ["x", "y"], startUser := "s0", targetUser := "t0" }

/-! ### Theorems about the bidirectional BFS -/

/-- Every result the main loop returns is either a found-result (with a
truthy path and `found = true`) or the not-found record with `path = None`
and `distance = -1`. -/
lemma bfsLoop_cases (g : GraphIntf) :
    ∀ fuel fq bq fv bv fd bd nodes,
      (bfsLoop g fuel fq bq fv bv fd bd nodes).found = true ∨
      ∃ n, bfsLoop g fuel fq bq fv bv fd bd nodes = mkPathResult none (-1) n false := by
  intro fuel
  induction fuel with
  | zero =>
    intro fq bq fv bv fd bd nodes
    rw [bfsLoop]
    by_cases h1 : (fq.isEmpty && bq.isEmpty) = true
    · rw [if_pos h1]
      exact Or.inr ⟨nodes, rfl⟩
    rw [if_neg h1]
    by_cases h2 : fq.length ≤ bq.length
    · rw [if_pos h2]
      cases hm : (expandFrontier g fq fv fd bv).meeting with
      | some m => simp only [hm]; exact Or.inl rfl
      | none => simp only [hm]; exact Or.inr ⟨_, rfl⟩
    · rw [if_neg h2]
      cases hm : (expandFrontier g bq bv bd fv).meeting with
      | some m => simp only [hm]; exact Or.inl rfl
      | none => simp only [hm]; exact Or.inr ⟨_, rfl⟩
  | succ fuel ih =>
    intro fq bq fv bv fd bd nodes
    rw [bfsLoop]
    by_cases h1 : (fq.isEmpty && bq.isEmpty) = true
    · rw [if_pos h1]
      exact Or.inr ⟨nodes, rfl⟩
    rw [if_neg h1]
    by_cases h2 : fq.length ≤ bq.length
    · rw [if_pos h2]
      cases hm : (expandFrontier g fq fv fd bv).meeting with
      | some m => simp only [hm]; exact Or.inl rfl
      | none => simp only [hm]; exact ih _ _ _ _ _ _ _
    · rw [if_neg h2]
      cases hm : (expandFrontier g bq bv bd fv).meeting with
      | some m => simp only [hm]; exact Or.inl rfl
      | none => simp only [hm]; exact ih _ _ _ _ _ _ _

/-- C1: with users `u1`, `u2` and the single edge between them, the claim
says `find_path("u1","u2")` returns `path = ["u1","u2"]`.  The code instead
returns `found = true` with `path = ["u2"]`: `_expand_frontier` returns the
meeting point before recording its forward parent, so `_reconstruct_path`
loses the whole prefix from the start vertex.  In particular the returned
path does not begin at the queried start user. -/
theorem scenarioA_path_drops_start :
    (findShortestPath scenarioA "u1" "u2").found = true ∧
    (findShortestPath scenarioA "u1" "u2").path = some ["u2"] ∧
    (findShortestPath scenarioA "u1" "u2").path ≠ some ["u1", "u2"] := by
  refine ⟨rfl, rfl, ?_⟩
  decide

/-- C2: the claim says the returned `distance` equals the true BFS distance
when that is at most `6`.  On scenario A the true distance is `1` (the only
edge of the graph joins the two queried users), yet the code returns
`distance = 0`.  The depth-cap half of the claim does hold on scenario C:
a chain of eight users yields `found = false`, `distance = -1`. -/
theorem scenarioA_distance_wrong :
    (findShortestPath scenarioA "u1" "u2").distance = 0 ∧
    (findShortestPath scenarioA "u1" "u2").distance ≠ 1 ∧
    scenarioA.getConnections "u1" = ["u2"] ∧
    (findShortestPath scenarioC "u1" "u8").found = false ∧
    (findShortestPath scenarioC "u1" "u8").distance = -1 := by
  refine ⟨rfl, by decide, rfl, ?_, ?_⟩ <;> decide

/-- C5: for every user `u` (in fact for every string, because the
`start == target` check precedes the existence check),
`find_shortest_path(u, u)` returns `found = true`, the singleton path
`[u]`, and distance exactly `0`: `__post_init__` normalises the distance to
`len([u]) - 1 = 0`. -/
theorem find_shortest_path_self (g : GraphIntf) (u : String) :
    findShortestPath g u u =
      { path := some [u], distance := 0, nodesExplored := 1, found := true } := by
  simp [findShortestPath, mkPathResult, pathTruthy]

/-- C4 counterexample: the claim says every query with a nonexistent
endpoint returns `found = false`, but the `start == target` check precedes
the existence check, so a self-query on a user that does not exist returns
`found = true`. -/
theorem missing_self_query_found :
    emptyGraph.userExists "ghost" = false ∧
    (findShortestPath emptyGraph "ghost" "ghost").found = true :=
  ⟨rfl, rfl⟩

/-- C9: `__post_init__` normalises the `distance` field regardless of the
`distance` argument passed to the constructor: a non-empty path yields
`len(path) - 1`, a `None` path yields `-1`. -/
theorem post_init_normalises_distance (p : Option (List String)) (d : Int)
    (n : Nat) (f : Bool) :
    (∀ l, p = some l → l ≠ [] →
       (mkPathResult p d n f).distance = (l.length : Int) - 1) ∧
    (p = none → (mkPathResult p d n f).distance = -1) := by
  constructor
  · intro l hp hl
    subst hp
    simp [mkPathResult, pathTruthy, hl]
  · intro hp
    subst hp
    simp [mkPathResult, pathTruthy]

/-- Witness for the C9 theorem at concrete inputs: a two-element path with
a wildly wrong constructor distance is normalised to `1`; a `None` path is
normalised to `-1`. -/
theorem post_init_normalises_distance_witness :
    (mkPathResult (some ["x", "y"]) 42 0 true).distance = 1 ∧
    (mkPathResult none 42 0 false).distance = -1 := by
  constructor
  · have h := (post_init_normalises_distance (some ["x", "y"]) 42 0 true).1
      ["x", "y"] rfl (by decide)
    simpa using h
  · exact (post_init_normalises_distance none 42 0 false).2 rfl

/-! ### Association-list and set lemmas -/

section AssocLemmas

variable {κ α : Type} [DecidableEq κ]

lemma alookup_updateAt_self (l : List (κ × α)) (k : κ) (d : α) (f : α → α) :
    alookup (updateAt l k d f) k = some (f ((alookup l k).getD d)) := by
  induction l with
  | nil => simp [updateAt, alookup]
  | cons p l ih =>
    by_cases h : p.1 = k
    · simp [updateAt, alookup, h]
    · simp [updateAt, alookup, h, ih]

lemma alookup_updateAt_ne (l : List (κ × α)) (k k' : κ) (d : α) (f : α → α)
    (h : k' ≠ k) : alookup (updateAt l k d f) k' = alookup l k' := by
  induction l with
  | nil => simp [updateAt, alookup, Ne.symm h]
  | cons p l ih =>
    obtain ⟨pk, pv⟩ := p
    by_cases hp : pk = k
    · subst hp
      simp [updateAt, alookup, Ne.symm h]
    · simp [updateAt, alookup, hp, ih]

lemma updateAt_eq_self (l : List (κ × α)) (k : κ) (d : α) (f : α → α) (v : α)
    (hv : alookup l k = some v) (hf : f v = v) : updateAt l k d f = l := by
  induction l with
  | nil => simp [alookup] at hv
  | cons p l ih =>
    obtain ⟨pk, pv⟩ := p
    by_cases hp : pk = k
    · simp only [alookup, if_pos hp] at hv
      have hpv : pv = v := Option.some.inj hv
      subst hpv
      simp [updateAt, hp, hf]
    · simp only [alookup, if_neg hp] at hv
      simp [updateAt, hp, ih hv]

lemma containsKey_updateAt_of (l : List (κ × α)) (k k' : κ) (d : α)
    (f : α → α) (h : containsKey l k' = true) :
    containsKey (updateAt l k d f) k' = true := by
  by_cases hkk : k' = k
  · subst hkk
    rw [containsKey, alookup_updateAt_self]
    rfl
  · rw [containsKey, alookup_updateAt_ne _ _ _ _ _ hkk]
    exact h

lemma alookup_modifyAt_self (l : List (κ × α)) (k : κ) (f : α → α) :
    alookup (modifyAt l k f) k = (alookup l k).map f := by
  induction l with
  | nil => simp [modifyAt, alookup]
  | cons p l ih =>
    by_cases h : p.1 = k
    · simp [modifyAt, alookup, h]
    · simp [modifyAt, alookup, h, ih]

lemma alookup_modifyAt_ne (l : List (κ × α)) (k k' : κ) (f : α → α)
    (h : k' ≠ k) : alookup (modifyAt l k f) k' = alookup l k' := by
  induction l with
  | nil => simp [modifyAt]
  | cons p l ih =>
    obtain ⟨pk, pv⟩ := p
    by_cases hp : pk = k
    · subst hp
      simp [modifyAt, alookup, Ne.symm h]
    · simp [modifyAt, alookup, hp, ih]

lemma modifyAt_eq_self (l : List (κ × α)) (k : κ) (f : α → α)
    (h : ∀ v, alookup l k = some v → f v = v) : modifyAt l k f = l := by
  induction l with
  | nil => simp [modifyAt]
  | cons p l ih =>
    obtain ⟨pk, pv⟩ := p
    by_cases hp : pk = k
    · have hv : alookup ((pk, pv) :: l) k = some pv := by simp [alookup, hp]
      simp [modifyAt, hp, h pv hv]
    · have ihh : modifyAt l k f = l := by
        apply ih
        intro v hv
        apply h
        simp [alookup, hp, hv]
      simp [modifyAt, hp, ihh]

lemma alookup_eq_none_of_keys_ne (l : List (κ × α)) (k : κ)
    (h : ∀ p ∈ l, p.1 ≠ k) : alookup l k = none := by
  induction l with
  | nil => rfl
  | cons p l ih =>
    have hp : p.1 ≠ k := h p (List.mem_cons_self p l)
    simp only [alookup, if_neg hp]
    exact ih (fun q hq => h q (List.mem_cons_of_mem p hq))

lemma alookup_append_left_none (l1 l2 : List (κ × α)) (k : κ)
    (h : alookup l1 k = none) : alookup (l1 ++ l2) k = alookup l2 k := by
  induction l1 with
  | nil => rfl
  | cons p l ih =>
    by_cases hp : p.1 = k
    · simp [alookup, hp] at h
    · simp only [alookup, if_neg hp] at h
      simp only [List.cons_append, alookup, if_neg hp]
      exact ih h

lemma alookup_filter_none (l : List (κ × α)) (q : κ × α → Bool) (k : κ)
    (h : alookup l k = none) : alookup (l.filter q) k = none := by
  induction l with
  | nil => rfl
  | cons p l ih =>
    obtain ⟨pk, pv⟩ := p
    by_cases hp : pk = k
    · simp [alookup, hp] at h
    · simp only [alookup, if_neg hp] at h
      rw [List.filter_cons]
      by_cases hq : q (pk, pv) = true
      · simp only [if_pos hq, alookup, if_neg hp]
        exact ih h
      · simp only [hq, if_false, Bool.false_eq_true]
        exact ih h

end AssocLemmas

lemma mem_setInsert_self {α : Type} [DecidableEq α] (l : List α) (x : α) :
    x ∈ setInsert l x := by
  by_cases h : x ∈ l <;> simp [setInsert, h]

lemma setInsert_eq_self {α : Type} [DecidableEq α] (l : List α) (x : α)
    (h : x ∈ l) : setInsert l x = l := by
  simp [setInsert, h]

lemma mem_setInsert_of_mem {α : Type} [DecidableEq α] (l : List α) (x y : α)
    (h : y ∈ l) : y ∈ setInsert l x := by
  by_cases hx : x ∈ l <;> simp [setInsert, hx, h]

lemma mem_getD_some {β : Type} (o : Option (List β)) (y : β)
    (h : y ∈ o.getD []) : ∃ v, o = some v ∧ y ∈ v := by
  cases o with
  | none => simp at h
  | some v => exact ⟨v, rfl, h⟩

/-! ### Sharding-layer lemmas -/

lemma shardId_shardAddEdge (sh : GraphShard) (x y : String) (t : Option Nat) :
    (shardAddEdge sh x y t).shardId = sh.shardId := by
  rcases t with _ | ts
  · rfl
  · by_cases h : ts = sh.shardId <;> simp [shardAddEdge, h]

lemma shardAddEdge_hasEdgeEntry (sh : GraphShard) (x y : String)
    (t : Option Nat) : hasEdgeEntry (shardAddEdge sh x y t) x y t := by
  rcases t with _ | ts
  · simp only [hasEdgeEntry, shardAddEdge]
    rw [alookup_updateAt_self]
    exact mem_setInsert_self _ _
  · by_cases h : ts = sh.shardId
    · have hid : ts = (shardAddEdge sh x y (some ts)).shardId := by
        rw [shardId_shardAddEdge]; exact h
      simp only [hasEdgeEntry, if_pos hid]
      simp only [shardAddEdge, if_pos h]
      rw [alookup_updateAt_self]
      exact mem_setInsert_self _ _
    · have hid : ¬ ts = (shardAddEdge sh x y (some ts)).shardId := by
        rw [shardId_shardAddEdge]; exact h
      simp only [hasEdgeEntry, if_neg hid]
      simp only [shardAddEdge, if_neg h]
      rw [alookup_updateAt_self]
      exact mem_setInsert_self _ _

lemma hasEdgeEntry_shardAddEdge (sh : GraphShard) (x y : String)
    (t : Option Nat) (x' y' : String) (t' : Option Nat)
    (h : hasEdgeEntry sh x y t) :
    hasEdgeEntry (shardAddEdge sh x' y' t') x y t := by
  have hlocal : ∀ z, y ∈ (alookup sh.localEdges x).getD [] →
      y ∈ (alookup (updateAt sh.localEdges x' [] (fun s => setInsert s z)) x).getD [] := by
    intro z hy
    by_cases hx : x = x'
    · subst hx
      rw [alookup_updateAt_self]
      exact mem_setInsert_of_mem _ _ _ hy
    · rw [alookup_updateAt_ne _ _ _ _ _ hx]
      exact hy
  have hremote : ∀ z, ∀ zt : Nat, (y, zt) ∈ (alookup sh.remoteEdges x).getD [] →
      (y, zt) ∈ (alookup (updateAt sh.remoteEdges x' [] (fun s => setInsert s z)) x).getD [] := by
    intro z zt hy
    by_cases hx : x = x'
    · subst hx
      rw [alookup_updateAt_self]
      exact mem_setInsert_of_mem _ _ _ hy
    · rw [alookup_updateAt_ne _ _ _ _ _ hx]
      exact hy
  have hid : (shardAddEdge sh x' y' t').shardId = sh.shardId :=
    shardId_shardAddEdge sh x' y' t'
  rcases t with _ | ts
  · simp only [hasEdgeEntry] at h ⊢
    rcases t' with _ | ts'
    · simp only [shardAddEdge]
      exact hlocal _ h
    · by_cases h' : ts' = sh.shardId
      · simp only [shardAddEdge, if_pos h']
        exact hlocal _ h
      · simp only [shardAddEdge, if_neg h']
        exact h
  · simp only [hasEdgeEntry] at h ⊢
    rw [hid]
    by_cases hts : ts = sh.shardId
    · rw [if_pos hts] at h ⊢
      rcases t' with _ | ts'
      · simp only [shardAddEdge]
        exact hlocal _ h
      · by_cases h' : ts' = sh.shardId
        · simp only [shardAddEdge, if_pos h']
          exact hlocal _ h
        · simp only [shardAddEdge, if_neg h']
          exact h
    · rw [if_neg hts] at h ⊢
      rcases t' with _ | ts'
      · simp only [shardAddEdge]
        exact h
      · by_cases h' : ts' = sh.shardId
        · simp only [shardAddEdge, if_pos h']
          exact h
        · simp only [shardAddEdge, if_neg h']
          exact hremote _ _ h

lemma shardAddEdge_of_hasEdgeEntry (sh : GraphShard) (x y : String)
    (t : Option Nat) (h : hasEdgeEntry sh x y t) :
    shardAddEdge sh x y t = sh := by
  rcases t with _ | ts
  · simp only [hasEdgeEntry] at h
    obtain ⟨v, hv, hyv⟩ := mem_getD_some _ _ h
    simp only [shardAddEdge]
    rw [updateAt_eq_self _ _ _ _ v hv (setInsert_eq_self _ _ hyv)]
  · by_cases hts : ts = sh.shardId
    · simp only [hasEdgeEntry, if_pos hts] at h
      obtain ⟨v, hv, hyv⟩ := mem_getD_some _ _ h
      simp only [shardAddEdge, if_pos hts]
      rw [updateAt_eq_self _ _ _ _ v hv (setInsert_eq_self _ _ hyv)]
    · simp only [hasEdgeEntry, if_neg hts] at h
      obtain ⟨v, hv, hyv⟩ := mem_getD_some _ _ h
      simp only [shardAddEdge, if_neg hts]
      rw [updateAt_eq_self _ _ _ _ v hv (setInsert_eq_self _ _ hyv)]

lemma updateShard_eq_self (st : ShardingState) (i : Nat)
    (f : GraphShard → GraphShard)
    (h : ∀ sh, alookup st.shards i = some sh → f sh = sh) :
    updateShard st i f = st := by
  simp only [updateShard]
  rw [modifyAt_eq_self _ _ _ h]

lemma shardingAddConnection_idem (ext : ExternalHashes) (st : ShardingState)
    (a b : String) :
    shardingAddConnection ext (shardingAddConnection ext st a b) a b =
      shardingAddConnection ext st a b := by
  simp only [shardingAddConnection, updateShard]
  set fm := getShardForUser ext st.strategy st.numShards a with hfm
  set toS := getShardForUser ext st.strategy st.numShards b with htoS
  set F1 := fun sh => shardAddEdge sh a b (some toS) with hF1
  set F2 := fun sh => shardAddEdge sh b a (some fm) with hF2
  set l1 := modifyAt (modifyAt st.shards fm F1) toS F2 with hl1
  have hval1 : ∀ sh, alookup l1 fm = some sh → F1 sh = sh := by
    intro sh hsh
    apply shardAddEdge_of_hasEdgeEntry
    by_cases hft : fm = toS
    · rw [hl1, hft, alookup_modifyAt_self, alookup_modifyAt_self] at hsh
      rcases h0 : alookup st.shards toS with _ | sh0
      · rw [h0] at hsh; cases hsh
      · rw [h0] at hsh
        have : F2 (F1 sh0) = sh := Option.some.inj hsh
        rw [← this]
        exact hasEdgeEntry_shardAddEdge _ _ _ _ _ _ _
          (shardAddEdge_hasEdgeEntry _ _ _ _)
    · rw [hl1, alookup_modifyAt_ne _ _ _ _ hft, alookup_modifyAt_self] at hsh
      rcases h0 : alookup st.shards fm with _ | sh0
      · rw [h0] at hsh; cases hsh
      · rw [h0] at hsh
        have : F1 sh0 = sh := Option.some.inj hsh
        rw [← this]
        exact shardAddEdge_hasEdgeEntry _ _ _ _
  have step1 : modifyAt l1 fm F1 = l1 := modifyAt_eq_self _ _ _ hval1
  rw [step1]
  have hval2 : ∀ sh, alookup l1 toS = some sh → F2 sh = sh := by
    intro sh hsh
    apply shardAddEdge_of_hasEdgeEntry
    rw [hl1, alookup_modifyAt_self] at hsh
    rcases h0 : alookup (modifyAt st.shards fm F1) toS with _ | sh1
    · rw [h0] at hsh; cases hsh
    · rw [h0] at hsh
      have : F2 sh1 = sh := Option.some.inj hsh
      rw [← this]
      exact shardAddEdge_hasEdgeEntry _ _ _ _
  have step2 : modifyAt l1 toS F2 = l1 := modifyAt_eq_self _ _ _ hval2
  rw [step2]

/-- C10: `GraphDatabase.remove_connection` never touches the sharding
layer: the `DistributedGraphSharding` state is identical before and after
any call (successful or not), hence the per-shard edge counts and the
`(cross, total)` pair behind the cross-shard ratio are unchanged — in
particular they reflect every edge ever added, removed or not, and are
(trivially) non-decreasing under `remove_connection`.  The same holds
through the service wrapper. -/
theorem remove_connection_preserves_sharding (ext : ExternalHashes)
    (db : GraphDatabase) (s : PathfindingService) (a b : String) :
    ((gdbRemoveConnection db a b).2).sharding = db.sharding ∧
    shardStats ((gdbRemoveConnection db a b).2).sharding = shardStats db.sharding ∧
    crossShardCounts ((gdbRemoveConnection db a b).2).sharding =
      crossShardCounts db.sharding ∧
    ((serviceRemoveConnection s a b).2).gdb.sharding = s.gdb.sharding := by
  have h : ∀ db0 x y, ((gdbRemoveConnection db0 x y).2).sharding = db0.sharding := by
    intro db0 x y
    rw [gdbRemoveConnection]
    split_ifs <;> rfl
  refine ⟨h db a b, by rw [h db a b], by rw [h db a b], ?_⟩
  rw [serviceRemoveConnection]
  split_ifs <;> simp [h s.gdb a b]

/-- C3 counterexample: in a database holding users `u1`, `u2` with the edge
already present, a second `add_connection("u1","u2")` returns `True` (the
claim says `False`) and does change the state: `connection_count` is
incremented again. -/
theorem duplicate_add_returns_true :
    (gdbAddConnection extZero dbPair "u1" "u2").1 = true ∧
    (gdbAddConnection extZero dbPairConnected "u1" "u2").1 = true ∧
    dbPairConnected.connectionCount = 1 ∧
    (gdbAddConnection extZero dbPairConnected "u1" "u2").2.connectionCount = 2 := by
  refine ⟨rfl, rfl, rfl, rfl⟩

/-! ### Hex digest arithmetic (shard hash) -/

lemma hexVal_hexChar (d : Nat) (h : d < 16) : hexVal (hexChar d) = d := by
  interval_cases d <;> decide

lemma foldl_hexDigest (bs : List Nat) (h : ∀ b ∈ bs, b < 256) :
    ∀ acc, (hexDigest bs).foldl (fun acc c => 16 * acc + hexVal c) acc =
      bs.foldl (fun acc b => 256 * acc + b) acc := by
  induction bs with
  | nil => intro acc; simp [hexDigest]
  | cons b bs ih =>
    intro acc
    have hb : b < 256 := h b (List.mem_cons_self b bs)
    have h1 : b / 16 < 16 := Nat.div_lt_of_lt_mul (by omega)
    have h2 : b % 16 < 16 := Nat.mod_lt _ (by omega)
    have htl : ∀ x ∈ bs, x < 256 := fun x hx => h x (List.mem_cons_of_mem b hx)
    simp only [hexDigest, List.flatMap_cons, List.foldl_append, List.foldl_cons,
      List.foldl_nil]
    rw [hexVal_hexChar _ h1, hexVal_hexChar _ h2]
    have harith : 16 * (16 * acc + b / 16) + b % 16 = 256 * acc + b := by
      have hdm := Nat.div_add_mod b 16
      omega
    rw [harith]
    exact ih htl _

lemma intOfHex_hexDigest (bs : List Nat) (h : ∀ b ∈ bs, b < 256) :
    intOfHex (hexDigest bs) = bigEndianVal bs :=
  foldl_hexDigest bs h 0

/-- C8: the shard assignment is the MD5 digest read as a big-endian
unsigned integer, modulo the shard count.  `_hash_user_id` goes through
`int(hexdigest(), 16)`, and for genuine digest bytes (each `< 256`) that
equals the big-endian value of the digest; `get_shard_for_user` with the
default `HASH_BASED` strategy forwards to `_hash_user_id`.  Purity and
stability across calls and processes hold by construction: the result is
a function of the digest of the id and the shard count alone. -/
theorem shard_assignment_is_md5_mod (ext : ExternalHashes) (uid : String)
    (nShards : Nat) (h : ∀ b ∈ ext.md5Bytes uid, b < 256) :
    hashUserId ext nShards uid = bigEndianVal (ext.md5Bytes uid) % nShards ∧
    getShardForUser ext ShardingStrategy.hashBased nShards uid =
      bigEndianVal (ext.md5Bytes uid) % nShards := by
  have hx := intOfHex_hexDigest (ext.md5Bytes uid) h
  constructor
  · rw [hashUserId, hx]
  · rw [getShardForUser, hashUserId, hx]

/-- Witness for the C8 theorem at a concrete digest: bytes
`[171, 5, 255]` give `((171·256 + 5)·256 + 255) mod 7`. -/
theorem shard_assignment_is_md5_mod_witness :
    hashUserId extFixed 7 "alice" = bigEndianVal [171, 5, 255] % 7 :=
  (shard_assignment_is_md5_mod extFixed "alice" 7 (by decide)).1

/-- C3 (amended): when `add_connection(a,b)` succeeds, calling it again
returns `True` (not `False` as claimed) and leaves `_connections`, the
user records and the whole sharding state unchanged — the duplicate is
absorbed by set semantics — but increments `connection_count` a second
time, so the state is not entirely unchanged either. -/
theorem add_connection_duplicate_idempotent (ext : ExternalHashes)
    (db : GraphDatabase) (a b : String)
    (h : (gdbAddConnection ext db a b).1 = true) :
    (gdbAddConnection ext (gdbAddConnection ext db a b).2 a b).1 = true ∧
    (gdbAddConnection ext (gdbAddConnection ext db a b).2 a b).2.connections =
      (gdbAddConnection ext db a b).2.connections ∧
    (gdbAddConnection ext (gdbAddConnection ext db a b).2 a b).2.users =
      (gdbAddConnection ext db a b).2.users ∧
    (gdbAddConnection ext (gdbAddConnection ext db a b).2 a b).2.sharding =
      (gdbAddConnection ext db a b).2.sharding ∧
    (gdbAddConnection ext (gdbAddConnection ext db a b).2 a b).2.connectionCount =
      (gdbAddConnection ext db a b).2.connectionCount + 1 := by
  have hu : (containsKey db.users a && containsKey db.users b) = true := by
    by_contra hu
    rw [gdbAddConnection, if_pos hu] at h
    simp at h
  have hu' := hu
  rw [Bool.and_eq_true] at hu'
  obtain ⟨huA, huB⟩ := hu'
  have hab : a ≠ b := by
    intro he
    rw [gdbAddConnection, if_neg (not_not_intro hu), if_pos he] at h
    simp at h
  have hfst : gdbAddConnection ext db a b =
      (true,
        { db with
          connections := updateAt
            (updateAt db.connections a [] (fun s => setInsert s b)) b []
            (fun s => setInsert s a)
          users := updateAt
            (updateAt db.users a [] (fun s => setInsert s b)) b []
            (fun s => setInsert s a)
          sharding := shardingAddConnection ext db.sharding a b
          connectionCount := db.connectionCount + 1 }) := by
    rw [gdbAddConnection, if_neg (not_not_intro hu), if_neg hab]
  have ha1 : containsKey ((gdbAddConnection ext db a b).2).users a = true := by
    rw [hfst]
    exact containsKey_updateAt_of _ _ _ _ _
      (containsKey_updateAt_of _ _ _ _ _ huA)
  have hb1 : containsKey ((gdbAddConnection ext db a b).2).users b = true := by
    rw [hfst]
    exact containsKey_updateAt_of _ _ _ _ _
      (containsKey_updateAt_of _ _ _ _ _ huB)
  have hu1 : (containsKey ((gdbAddConnection ext db a b).2).users a &&
      containsKey ((gdbAddConnection ext db a b).2).users b) = true := by
    rw [Bool.and_eq_true]
    exact ⟨ha1, hb1⟩
  have hsnd : gdbAddConnection ext ((gdbAddConnection ext db a b).2) a b =
      (true,
        { (gdbAddConnection ext db a b).2 with
          connections := updateAt
            (updateAt ((gdbAddConnection ext db a b).2).connections a []
              (fun s => setInsert s b)) b [] (fun s => setInsert s a)
          users := updateAt
            (updateAt ((gdbAddConnection ext db a b).2).users a []
              (fun s => setInsert s b)) b [] (fun s => setInsert s a)
          sharding := shardingAddConnection ext
            ((gdbAddConnection ext db a b).2).sharding a b
          connectionCount :=
            ((gdbAddConnection ext db a b).2).connectionCount + 1 }) := by
    rw [gdbAddConnection, if_neg (not_not_intro hu1), if_neg hab]
  have habsorb : ∀ l0 : List (String × List String),
      updateAt
        (updateAt
          (updateAt (updateAt l0 a [] (fun s => setInsert s b)) b []
            (fun s => setInsert s a)) a [] (fun s => setInsert s b)) b []
        (fun s => setInsert s a) =
      updateAt (updateAt l0 a [] (fun s => setInsert s b)) b []
        (fun s => setInsert s a) := by
    intro l0
    have hva : alookup
        (updateAt (updateAt l0 a [] (fun s => setInsert s b)) b []
          (fun s => setInsert s a)) a =
        some (setInsert ((alookup l0 a).getD []) b) := by
      rw [alookup_updateAt_ne _ _ _ _ _ hab, alookup_updateAt_self]
    rw [updateAt_eq_self _ _ _ _ _ hva
      (setInsert_eq_self _ _ (mem_setInsert_self _ _))]
    have hvb : alookup
        (updateAt (updateAt l0 a [] (fun s => setInsert s b)) b []
          (fun s => setInsert s a)) b =
        some (setInsert
          ((alookup (updateAt l0 a [] (fun s => setInsert s b)) b).getD []) a) :=
      alookup_updateAt_self _ _ _ _
    rw [updateAt_eq_self _ _ _ _ _ hvb
      (setInsert_eq_self _ _ (mem_setInsert_self _ _))]
  have hconn : updateAt
      (updateAt ((gdbAddConnection ext db a b).2).connections a []
        (fun s => setInsert s b)) b [] (fun s => setInsert s a) =
      ((gdbAddConnection ext db a b).2).connections := by
    rw [hfst]
    exact habsorb db.connections
  have husers : updateAt
      (updateAt ((gdbAddConnection ext db a b).2).users a []
        (fun s => setInsert s b)) b [] (fun s => setInsert s a) =
      ((gdbAddConnection ext db a b).2).users := by
    rw [hfst]
    exact habsorb db.users
  have hshard : shardingAddConnection ext
      ((gdbAddConnection ext db a b).2).sharding a b =
      ((gdbAddConnection ext db a b).2).sharding := by
    rw [hfst]
    exact shardingAddConnection_idem ext db.sharding a b
  refine ⟨by rw [hsnd], ?_, ?_, ?_, by rw [hsnd]⟩
  · rw [hsnd]
    exact hconn
  · rw [hsnd]
    exact husers
  · rw [hsnd]
    exact hshard

/-- Witness for the amended C3 theorem at a concrete input: re-adding the
existing edge `u1 — u2` leaves `_connections` unchanged and increments
`connection_count`. -/
theorem add_connection_duplicate_idempotent_witness :
    (gdbAddConnection extZero dbPairConnected "u1" "u2").2.connections =
      dbPairConnected.connections ∧
    (gdbAddConnection extZero dbPairConnected "u1" "u2").2.connectionCount =
      dbPairConnected.connectionCount + 1 := by
  have h := add_connection_duplicate_idempotent extZero dbPair "u1" "u2" rfl
  exact ⟨h.2.1, h.2.2.2.2⟩

/-! ### String-order and substring lemmas for the cache key -/

lemma lexLt_asymm (x : List Char) :
    ∀ y, lexLt x y = true → lexLt y x = false := by
  induction x with
  | nil =>
    intro y h
    cases y with
    | nil => simpa [lexLt] using h
    | cons d ds => simp [lexLt]
  | cons c cs ih =>
    intro y h
    cases y with
    | nil => simp [lexLt] at h
    | cons d ds =>
      simp only [lexLt] at h ⊢
      by_cases h1 : c.toNat < d.toNat
      · have h2 : ¬ d.toNat < c.toNat := by omega
        simp [h1, h2]
      · by_cases h2 : d.toNat < c.toNat
        · simp [h1, h2] at h
        · simp only [if_neg h1, if_neg h2] at h
          simp only [if_neg h2, if_neg h1]
          exact ih ds h

lemma lexLt_eq_of_both_false (x : List Char) :
    ∀ y, lexLt x y = false → lexLt y x = false → x = y := by
  induction x with
  | nil =>
    intro y h1 _
    cases y with
    | nil => rfl
    | cons d ds => simp [lexLt] at h1
  | cons c cs ih =>
    intro y h1 h2
    cases y with
    | nil => simp [lexLt] at h2
    | cons d ds =>
      simp only [lexLt] at h1 h2
      by_cases hcd : c.toNat < d.toNat
      · simp [hcd] at h1
      · by_cases hdc : d.toNat < c.toNat
        · simp [hdc] at h2
        · have hn : c.toNat = d.toNat :=
            Nat.le_antisymm (Nat.le_of_not_lt hdc) (Nat.le_of_not_lt hcd)
          have heq : c = d := Char.eq_of_val_eq (UInt32.ext hn)
          simp only [if_neg hcd, if_neg hdc] at h1
          simp only [if_neg hdc, if_neg hcd] at h2
          rw [heq, ih ds h1 h2]

lemma sortPair_comm (a b : String) : sortPair a b = sortPair b a := by
  simp only [sortPair, strLt]
  by_cases h1 : lexLt b.data a.data = true
  · have h2 : lexLt a.data b.data = false := lexLt_asymm _ _ h1
    rw [if_pos h1, if_neg (by simp [h2])]
  · have h1' : lexLt b.data a.data = false := by
      revert h1; cases lexLt b.data a.data <;> simp
    by_cases h2 : lexLt a.data b.data = true
    · rw [if_neg h1, if_pos h2]
    · have h2' : lexLt a.data b.data = false := by
        revert h2; cases lexLt a.data b.data <;> simp
      have hdata : a.data = b.data := lexLt_eq_of_both_false _ _ h2' h1'
      have heq : a = b := String.ext hdata
      rw [heq]

lemma sortPair_cases (a b : String) :
    sortPair a b = (a, b) ∨ sortPair a b = (b, a) := by
  simp only [sortPair]
  by_cases h : strLt b a
  · exact Or.inr (if_pos h)
  · exact Or.inl (if_neg h)

lemma createPathKey_comm (a b : String) :
    createPathKey a b = createPathKey b a := by
  simp only [createPathKey]
  rw [sortPair_comm]

lemma createPathKey_data (a b : String) :
    (createPathKey a b).data =
      "path:".data ++ ((sortPair a b).1.data ++
        (":".data ++ (sortPair a b).2.data)) := by
  simp only [createPathKey]
  simp [String.data_append, List.append_assoc]

lemma startsWithB_append_self (l r : List Char) :
    startsWithB l (l ++ r) = true := by
  induction l with
  | nil => rfl
  | cons c cs ih => simp [startsWithB, ih]

lemma containsSub_of_starts (n h : List Char)
    (hs : startsWithB n h = true) : containsSub n h = true := by
  cases h with
  | nil => simpa [containsSub] using hs
  | cons c t => simp [containsSub, hs]

lemma containsSub_append (n p h : List Char) (hc : containsSub n h = true) :
    containsSub n (p ++ h) = true := by
  induction p with
  | nil => simpa using hc
  | cons c cs ih => simp [containsSub, ih]

lemma containsSub_mid (n p s : List Char) :
    containsSub n (p ++ (n ++ s)) = true :=
  containsSub_append _ _ _
    (containsSub_of_starts _ _ (startsWithB_append_self n s))

lemma startsWith_pathKey (a b : String) :
    startsWithB "path:".data (createPathKey a b).data = true := by
  rw [createPathKey_data]
  exact startsWithB_append_self _ _

lemma containsSub_pathKey (a b u : String) (h : u = a ∨ u = b) :
    containsSub u.data (createPathKey a b).data = true := by
  rw [createPathKey_data]
  rcases sortPair_cases a b with hs | hs <;> rw [hs] <;>
    rcases h with hu | hu <;> subst hu
  · exact containsSub_mid _ _ _
  · simpa [List.append_assoc] using
      containsSub_mid u.data ("path:".data ++ (a.data ++ ":".data)) []
  · simpa [List.append_assoc] using
      containsSub_mid u.data ("path:".data ++ (b.data ++ ":".data)) []
  · exact containsSub_mid _ _ _

/-! ### Cache invalidation and lookup lemmas -/

lemma getPath_invalidate_self (c : PathCache) (u x y : String)
    (h : u = x ∨ u = y) :
    getPath (invalidateUserPaths c u) x y = none := by
  have hk : alookup (invalidateUserPaths c u).entries (createPathKey x y) =
      none := by
    apply alookup_eq_none_of_keys_ne
    intro p hp hkey
    simp only [invalidateUserPaths] at hp
    obtain ⟨_, hpred⟩ := List.mem_filter.mp hp
    rw [hkey] at hpred
    rw [startsWith_pathKey, containsSub_pathKey x y u h] at hpred
    simp at hpred
  rw [getPath, hk]

lemma getPath_invalidate_mono (c : PathCache) (u x y : String)
    (h : getPath c x y = none) :
    getPath (invalidateUserPaths c u) x y = none := by
  have hk : alookup c.entries (createPathKey x y) = none := by
    rcases hl : alookup c.entries (createPathKey x y) with _ | r
    · rfl
    · simp only [getPath, hl] at h
      split_ifs at h <;> exact Option.noConfusion h
  rw [getPath]
  simp only [invalidateUserPaths]
  rw [alookup_filter_none _ _ _ hk]

lemma cachePut_alookup (c : PathCache) (k : String) (v : CacheRecord)
    (hcap : 1 ≤ c.maxSize) : alookup (cachePut c k v).entries k = some v := by
  have hkeys : ∀ p ∈ c.entries.filter (fun p => p.1 ≠ k), p.1 ≠ k := by
    intro p hp
    simpa using (List.mem_filter.mp hp).2
  have hnone : alookup (c.entries.filter (fun p => p.1 ≠ k)) k = none :=
    alookup_eq_none_of_keys_ne _ _ hkeys
  simp only [cachePut]
  by_cases hlen :
      (c.entries.filter (fun p => p.1 ≠ k) ++ [(k, v)]).length ≤ c.maxSize
  · rw [if_pos hlen]
    rw [alookup_append_left_none _ _ _ hnone]
    simp [alookup]
  · rw [if_neg hlen]
    have hd : (c.entries.filter (fun p => p.1 ≠ k) ++ [(k, v)]).length -
        c.maxSize ≤ (c.entries.filter (fun p => p.1 ≠ k)).length := by
      simp only [List.length_append, List.length_cons, List.length_nil]
      omega
    rw [List.drop_append_of_le_length hd]
    have hnone2 : alookup
        ((c.entries.filter (fun p => p.1 ≠ k)).drop
          ((c.entries.filter (fun p => p.1 ≠ k) ++ [(k, v)]).length -
            c.maxSize)) k = none := by
      apply alookup_eq_none_of_keys_ne
      intro p hp
      exact hkeys p (List.mem_of_mem_drop hp)
    rw [alookup_append_left_none _ _ _ hnone2]
    simp [alookup]

/-! ### Invalidation completeness and cache symmetry -/

/-- C6: after a successful `add_connection(a,b)` or `remove_connection(a,b)`
through the service (with caching enabled, as constructed), every
subsequent cache lookup whose query involves `a` or `b` misses: the
invalidation scanner removes every `"path:"`-keyed entry containing the
endpoint as a substring, and the key of any pair involving that endpoint
contains it as a substring. -/
theorem invalidation_completeness (ext : ExternalHashes)
    (s : PathfindingService) (a b : String)
    (hcache : s.enableCaching = true) :
    ((serviceAddConnection ext s a b).1 = true →
      ∀ x, getPath ((serviceAddConnection ext s a b).2).cache a x = none ∧
        getPath ((serviceAddConnection ext s a b).2).cache x a = none ∧
        getPath ((serviceAddConnection ext s a b).2).cache b x = none ∧
        getPath ((serviceAddConnection ext s a b).2).cache x b = none) ∧
    ((serviceRemoveConnection s a b).1 = true →
      ∀ x, getPath ((serviceRemoveConnection s a b).2).cache a x = none ∧
        getPath ((serviceRemoveConnection s a b).2).cache x a = none ∧
        getPath ((serviceRemoveConnection s a b).2).cache b x = none ∧
        getPath ((serviceRemoveConnection s a b).2).cache x b = none) := by
  have main : ∀ c0 : PathCache, ∀ x,
      getPath (invalidateUserPaths (invalidateUserPaths c0 a) b) a x = none ∧
      getPath (invalidateUserPaths (invalidateUserPaths c0 a) b) x a = none ∧
      getPath (invalidateUserPaths (invalidateUserPaths c0 a) b) b x = none ∧
      getPath (invalidateUserPaths (invalidateUserPaths c0 a) b) x b = none := by
    intro c0 x
    refine ⟨?_, ?_, ?_, ?_⟩
    · exact getPath_invalidate_mono _ _ _ _
        (getPath_invalidate_self _ _ _ _ (Or.inl rfl))
    · exact getPath_invalidate_mono _ _ _ _
        (getPath_invalidate_self _ _ _ _ (Or.inr rfl))
    · exact getPath_invalidate_self _ _ _ _ (Or.inl rfl)
    · exact getPath_invalidate_self _ _ _ _ (Or.inr rfl)
  constructor
  · intro h x
    have hfst : (serviceAddConnection ext s a b).1 =
        (gdbAddConnection ext s.gdb a b).1 := by
      simp only [serviceAddConnection]
      split <;> rfl
    rw [hfst] at h
    have hcond : ((gdbAddConnection ext s.gdb a b).1 && s.enableCaching) =
        true := by rw [h, hcache]; rfl
    have hstate : ((serviceAddConnection ext s a b).2).cache =
        invalidateUserPaths (invalidateUserPaths s.cache a) b := by
      simp only [serviceAddConnection]
      rw [if_pos hcond]
    rw [hstate]
    exact main s.cache x
  · intro h x
    have hfst : (serviceRemoveConnection s a b).1 =
        (gdbRemoveConnection s.gdb a b).1 := by
      simp only [serviceRemoveConnection]
      split <;> rfl
    rw [hfst] at h
    have hcond : ((gdbRemoveConnection s.gdb a b).1 && s.enableCaching) =
        true := by rw [h, hcache]; rfl
    have hstate : ((serviceRemoveConnection s a b).2).cache =
        invalidateUserPaths (invalidateUserPaths s.cache a) b := by
      simp only [serviceRemoveConnection]
      rw [if_pos hcond]
    rw [hstate]
    exact main s.cache x

/-- Witness for the C6 theorem at concrete inputs: a cached `(u1, u3)`
entry misses after `add_connection("u1","u2")`, and likewise after
`remove_connection("u1","u2")` on the connected database. -/
theorem invalidation_completeness_witness :
    getPath ((serviceAddConnection extZero svcAdd "u1" "u2").2).cache
      "u1" "u3" = none ∧
    getPath ((serviceRemoveConnection svcRem "u1" "u2").2).cache
      "u3" "u1" = none := by
  constructor
  · exact ((invalidation_completeness extZero svcAdd "u1" "u2" rfl).1
      rfl "u3").1
  · exact ((invalidation_completeness extZero svcRem "u1" "u2" rfl).2
      rfl "u3").2.1

/-- C7 counterexample: the claim quantifies over every pair of endpoints,
including `a = b`.  A record with a non-palindromic path cached via
`cache_path("u","u")` is returned unreversed by both (identical) lookups
`get_path("u","u")`, and such a path is not its own reverse, so the two
returned paths are not reverses of each other. -/
theorem cache_self_pair_not_reversed :
    getPath cacheSelfPair "u" "u" =
      some { found := true, path := some ["x", "y"],
             startUser := "u", targetUser := "u" } ∧
    Option.map List.reverse (some [("x" : String), "y"]) ≠ some ["x", "y"] := by
  refine ⟨rfl, ?_⟩
  decide

/-- C7 (amended): for distinct endpoints `a ≠ b` and an entry cached via
`cache_path(a,b)` (capacity at least one, so the entry survives insertion),
`get_path(a,b)` and `get_path(b,a)` read the identical key; `get_path(a,b)`
returns the stored record, `get_path(b,a)` returns a copy with the path
reversed and start/target swapped when the stored path is truthy (and the
stored record unchanged otherwise), so the two returned paths are reverses
of each other; and the stored record itself is left unmutated by the
lookups. -/
theorem path_cache_symmetry (c : PathCache) (a b : String) (r : CacheRecord)
    (hab : a ≠ b) (hcap : 1 ≤ c.maxSize) :
    createPathKey a b = createPathKey b a ∧
    getPath (cachePath c a b r) a b =
      some { r with startUser := a, targetUser := b } ∧
    getPath (cachePath c a b r) b a =
      some (if pathTruthy r.path then
        { r with path := r.path.map List.reverse,
                 startUser := b, targetUser := a }
      else { r with startUser := a, targetUser := b }) ∧
    ((getPath (cachePath c a b r) b a).bind (fun q => q.path)) =
      Option.map List.reverse r.path ∧
    alookup (cachePath c a b r).entries (createPathKey a b) =
      some { r with startUser := a, targetUser := b } := by
  have hkey : alookup (cachePath c a b r).entries (createPathKey a b) =
      some { r with startUser := a, targetUser := b } := by
    simp only [cachePath]
    exact cachePut_alookup _ _ _ hcap
  have hget1 : getPath (cachePath c a b r) a b =
      some { r with startUser := a, targetUser := b } := by
    rw [getPath, hkey]
    simp
  have hmapid : pathTruthy r.path = false →
      Option.map List.reverse r.path = r.path := by
    intro hp
    rcases hr : r.path with _ | l
    · rfl
    · rcases l with _ | ⟨z, zs⟩
      · rfl
      · rw [hr] at hp
        simp [pathTruthy] at hp
  have hget2 : getPath (cachePath c a b r) b a =
      some (if pathTruthy r.path then
        { r with path := r.path.map List.reverse,
                 startUser := b, targetUser := a }
      else { r with startUser := a, targetUser := b }) := by
    rw [getPath, createPathKey_comm b a, hkey]
    by_cases ht : pathTruthy r.path = true
    · simp [Ne.symm hab, ht]
    · have ht' : pathTruthy r.path = false := by
        revert ht; cases pathTruthy r.path <;> simp
      simp [Ne.symm hab, ht']
  refine ⟨createPathKey_comm a b, hget1, hget2, ?_, hkey⟩
  rw [hget2]
  by_cases ht : pathTruthy r.path = true
  · simp [ht]
  · have ht' : pathTruthy r.path = false := by
      revert ht; cases pathTruthy r.path <;> simp
    simp [ht', hmapid ht']

/-- Witness for the amended C7 theorem at concrete inputs: caching a
record for `("p","q")` and reading it back with the endpoints given in
each order returns the stored record and its reversed copy. -/
theorem path_cache_symmetry_witness :
    getPath (cachePath { maxSize := 10, entries := [] } "p" "q" recU13)
      "p" "q" = some { recU13 with startUser := "p", targetUser := "q" } ∧
    ((getPath (cachePath { maxSize := 10, entries := [] } "p" "q" recU13)
      "q" "p").bind (fun q => q.path)) =
      Option.map List.reverse recU13.path := by
  have h := path_cache_symmetry { maxSize := 10, entries := [] } "p" "q"
    recU13 (by decide) (by decide)
  exact ⟨h.2.1, h.2.2.2.1⟩

/-! ### Reachability lemmas for the failure-semantics claim -/

lemma reachWithin_mono (g : GraphIntf) (root : String) {m n : Nat}
    (h : m ≤ n) : ∀ v, v ∈ reachWithin g m root → v ∈ reachWithin g n root := by
  induction h with
  | refl => exact fun v hv => hv
  | step _ ih =>
    intro v hv
    simp only [reachWithin]
    exact List.mem_append_left _ (ih v hv)

lemma reachWithin_step (g : GraphIntf) (root u w : String) (d : Nat)
    (hu : u ∈ reachWithin g d root) (hw : w ∈ g.getConnections u) :
    w ∈ reachWithin g (d + 1) root := by
  simp only [reachWithin]
  exact List.mem_append_right _ (List.mem_flatMap.mpr ⟨u, hu, hw⟩)

lemma reachWithin_trans (g : GraphIntf) (root : String) (m : Nat) :
    ∀ (n : Nat) (v x : String), v ∈ reachWithin g m root →
      x ∈ reachWithin g n v → x ∈ reachWithin g (m + n) root := by
  intro n
  induction n with
  | zero =>
    intro v x hv hx
    have hxv : x = v := by simpa [reachWithin] using hx
    subst hxv
    simpa using hv
  | succ n ih =>
    intro v x hv hx
    simp only [reachWithin] at hx
    rcases List.mem_append.mp hx with hx1 | hx2
    · exact reachWithin_mono g root (by omega) x (ih v x hv hx1)
    · obtain ⟨y, hy, hxy⟩ := List.mem_flatMap.mp hx2
      have hyr : y ∈ reachWithin g (m + n) root := ih v y hv hy
      have hs := reachWithin_step g root y x (m + n) hyr hxy
      have he : m + n + 1 = m + (n + 1) := by omega
      rw [he] at hs
      exact hs

lemma reachWithin_symm (g : GraphIntf)
    (hsym : ∀ u v, v ∈ g.getConnections u → u ∈ g.getConnections v) :
    ∀ (n : Nat) (v w : String), w ∈ reachWithin g n v →
      v ∈ reachWithin g n w := by
  intro n
  induction n with
  | zero =>
    intro v w hw
    have hwv : w = v := by simpa [reachWithin] using hw
    subst hwv
    exact hw
  | succ n ih =>
    intro v w hw
    simp only [reachWithin] at hw
    rcases List.mem_append.mp hw with h1 | h2
    · exact reachWithin_mono g w (by omega) v (ih v w h1)
    · obtain ⟨y, hy, hwy⟩ := List.mem_flatMap.mp h2
      have hyv : v ∈ reachWithin g n y := ih v y hy
      have hyw : y ∈ g.getConnections w := hsym y w hwy
      have hy1 : y ∈ reachWithin g 1 w := by
        simp only [reachWithin]
        exact List.mem_append_right _
          (List.mem_flatMap.mpr ⟨w, by simp [reachWithin], hyw⟩)
      have htr := reachWithin_trans g w 1 n y v hy1 hyv
      have he : 1 + n = n + 1 := by omega
      rw [he] at htr
      exact htr

lemma symGraph_symm (edges : List (String × String)) :
    ∀ u v, v ∈ (symGraph edges).getConnections u →
      u ∈ (symGraph edges).getConnections v := by
  intro u v hv
  simp only [symGraph] at hv ⊢
  rcases List.mem_append.mp hv with h1 | h2
  · obtain ⟨e, he, hev⟩ := List.mem_map.mp h1
    have hef := List.mem_filter.mp he
    have he1 : e.1 = u := by simpa using hef.2
    refine List.mem_append_right _ ?_
    refine List.mem_map.mpr ⟨e, ?_, he1⟩
    refine List.mem_filter.mpr ⟨hef.1, ?_⟩
    simp [hev]
  · obtain ⟨e, he, hev⟩ := List.mem_map.mp h2
    have hef := List.mem_filter.mp he
    have he2 : e.2 = u := by simpa using hef.2
    refine List.mem_append_left _ ?_
    refine List.mem_map.mpr ⟨e, ?_, he2⟩
    refine List.mem_filter.mpr ⟨hef.1, ?_⟩
    simp [hev]

/-! ### More association-list lemmas (append forms) -/

lemma alookup_append_some {κ α : Type} [DecidableEq κ]
    (l m : List (κ × α)) (k : κ) (v : α) (h : alookup l k = some v) :
    alookup (l ++ m) k = some v := by
  induction l with
  | nil => simp [alookup] at h
  | cons p l ih =>
    by_cases hp : p.1 = k
    · simp only [alookup, if_pos hp] at h
      simp only [List.cons_append, alookup, if_pos hp]
      exact h
    · simp only [alookup, if_neg hp] at h
      simp only [List.cons_append, alookup, if_neg hp]
      exact ih h

lemma containsKey_append_left {κ α : Type} [DecidableEq κ]
    (l m : List (κ × α)) (k : κ) (h : containsKey l k = true) :
    containsKey (l ++ m) k = true := by
  rw [containsKey] at h ⊢
  rcases hl : alookup l k with _ | v
  · rw [hl] at h
    simp at h
  · rw [alookup_append_some l m k v hl]
    rfl

lemma containsKey_append_single_elim {κ α : Type} [DecidableEq κ]
    (l : List (κ × α)) (k : κ) (x : α) (v : κ)
    (h : containsKey (l ++ [(k, x)]) v = true) :
    containsKey l v = true ∨ v = k := by
  rcases hl : alookup l v with _ | w
  · right
    rw [containsKey, alookup_append_left_none _ _ _ hl] at h
    by_cases hk : k = v
    · exact hk.symm
    · rw [show alookup [(k, x)] v = none from by simp [alookup, hk]] at h
      simp at h
  · left
    rw [containsKey, hl]
    rfl

lemma containsKey_append_single_self {κ α : Type} [DecidableEq κ]
    (l : List (κ × α)) (k : κ) (x : α) :
    containsKey (l ++ [(k, x)]) k = true := by
  rcases hl : alookup l k with _ | v
  · rw [containsKey, alookup_append_left_none _ _ _ hl]
    simp [alookup]
  · rw [containsKey, alookup_append_some _ _ _ _ hl]
    rfl

lemma containsKey_single_elim {κ α : Type} [DecidableEq κ] (k : κ) (x : α)
    (v : κ) (h : containsKey [(k, x)] v = true) : v = k := by
  by_cases hk : k = v
  · exact hk.symm
  · rw [containsKey] at h
    simp [alookup, hk] at h

lemma containsKey_single_self {κ α : Type} [DecidableEq κ] (k : κ) (x : α) :
    containsKey [(k, x)] k = true := by
  rw [containsKey]
  simp [alookup]

/-! ### Half-search invariants of the bidirectional BFS -/

lemma procNeighbors_spec (g : GraphIntf) (root u : String) (du : Nat)
    (other : List (String × Option String)) (hdu : du + 1 ≤ 3) :
    ∀ (ns : List String) (vis : List (String × Option String))
      (dep : List (String × Nat)) (nq : List String),
    (∀ w ∈ ns, w ∈ reachWithin g (du + 1) root) →
    SideInv g root vis dep →
    (∀ v ∈ nq, containsKey vis v = true) →
    SideInv g root (procNeighbors u du ns vis dep nq other).2.1
        (procNeighbors u du ns vis dep nq other).2.2.1 ∧
    (∀ v ∈ (procNeighbors u du ns vis dep nq other).2.2.2,
        containsKey (procNeighbors u du ns vis dep nq other).2.1 v = true) ∧
    (∀ v, containsKey vis v = true →
        containsKey (procNeighbors u du ns vis dep nq other).2.1 v = true) ∧
    (∀ w, (procNeighbors u du ns vis dep nq other).1 = some w →
        containsKey other w = true ∧ w ∈ reachWithin g (du + 1) root) := by
  intro ns
  induction ns with
  | nil =>
    intro vis dep nq _ hinv hnq
    simp only [procNeighbors]
    exact ⟨hinv, hnq, fun _ hv => hv, fun _ hw => by cases hw⟩
  | cons w ws ih =>
    intro vis dep nq hns hinv hnq
    by_cases ho : containsKey other w = true
    · simp only [procNeighbors, if_pos ho]
      refine ⟨hinv, hnq, fun _ hv => hv, ?_⟩
      intro w' hw'
      have hww : w = w' := Option.some.inj hw'
      subst hww
      exact ⟨ho, hns w (List.mem_cons_self w ws)⟩
    · by_cases hv : containsKey vis w = true
      · simp only [procNeighbors, if_neg ho, if_pos hv]
        exact ih vis dep nq (fun x hx => hns x (List.mem_cons_of_mem w hx))
          hinv hnq
      · simp only [procNeighbors, if_neg ho, if_neg hv]
        obtain ⟨hinv1, hinv2⟩ := hinv
        have hdepw : alookup dep w = none := by
          rcases hd : alookup dep w with _ | d0
          · rfl
          · exact absurd (hinv1 w (by rw [containsKey, hd]; rfl)) hv
        have hinv' : SideInv g root (vis ++ [(w, some u)])
            (dep ++ [(w, du + 1)]) := by
          constructor
          · intro v hkv
            rcases containsKey_append_single_elim _ _ _ _ hkv with hold | hvw
            · exact containsKey_append_left _ _ _ (hinv1 v hold)
            · subst hvw
              exact containsKey_append_single_self _ _ _
          · intro v hkv
            rcases containsKey_append_single_elim _ _ _ _ hkv with hold | hvw
            · obtain ⟨d, hld, hd3, hr⟩ := hinv2 v hold
              exact ⟨d, alookup_append_some _ _ _ _ hld, hd3, hr⟩
            · rw [hvw]
              refine ⟨du + 1, ?_, hdu, hns w (List.mem_cons_self w ws)⟩
              rw [alookup_append_left_none _ _ _ hdepw]
              simp [alookup]
        have hnq' : ∀ v ∈ nq ++ [w],
            containsKey (vis ++ [(w, some u)]) v = true := by
          intro v hv2
          rcases List.mem_append.mp hv2 with hvin | hvw
          · exact containsKey_append_left _ _ _ (hnq v hvin)
          · have hvw' : v = w := by simpa using hvw
            subst hvw'
            exact containsKey_append_single_self _ _ _
        obtain ⟨c1, c2, c3, c4⟩ := ih (vis ++ [(w, some u)])
          (dep ++ [(w, du + 1)]) (nq ++ [w])
          (fun x hx => hns x (List.mem_cons_of_mem w hx)) hinv' hnq'
        exact ⟨c1, c2,
          fun v hv2 => c3 v (containsKey_append_left _ _ _ hv2), c4⟩

lemma expandRest_spec (g : GraphIntf) (root : String)
    (other : List (String × Option String)) :
    ∀ (q : List String) (vis : List (String × Option String))
      (dep : List (String × Nat)) (nq : List String),
    SideInv g root vis dep →
    (∀ v ∈ q, containsKey vis v = true) →
    (∀ v ∈ nq, containsKey vis v = true) →
    SideInv g root (expandRest g q vis dep nq other).visited
        (expandRest g q vis dep nq other).depths ∧
    (∀ v ∈ (expandRest g q vis dep nq other).queue,
        containsKey (expandRest g q vis dep nq other).visited v = true) ∧
    (∀ w, (expandRest g q vis dep nq other).meeting = some w →
        containsKey other w = true ∧ w ∈ reachWithin g 3 root) := by
  intro q
  induction q with
  | nil =>
    intro vis dep nq hinv _ hnq
    simp only [expandRest]
    exact ⟨hinv, hnq, fun _ hw => by cases hw⟩
  | cons u rest ih =>
    intro vis dep nq hinv hq hnq
    by_cases hg : (alookup dep u).getD 0 ≥ maxDepth / 2
    · have hstep : expandRest g (u :: rest) vis dep nq other =
          expandRest g rest vis dep nq other := by
        simp only [expandRest]
        rw [if_pos hg]
      rw [hstep]
      exact ih vis dep nq hinv
        (fun v hv => hq v (List.mem_cons_of_mem u hv)) hnq
    · obtain ⟨hinv1, hinv2⟩ := hinv
      have hu : containsKey vis u = true := hq u (List.mem_cons_self u rest)
      obtain ⟨d, hld, hd3, hr⟩ := hinv2 u hu
      have hgd : (alookup dep u).getD 0 = d := by rw [hld]; rfl
      have hd1 : d + 1 ≤ 3 := by
        have h3 : maxDepth / 2 = 3 := rfl
        rw [hgd, h3] at hg
        omega
      have hns : ∀ w ∈ g.getConnections u, w ∈ reachWithin g (d + 1) root :=
        fun w hw => reachWithin_step g root u w d hr hw
      obtain ⟨m, v2, d2, nq2, hpr⟩ :
          ∃ m v2 d2 nq2,
            procNeighbors u d (g.getConnections u) vis dep nq other =
              (m, v2, d2, nq2) := ⟨_, _, _, _, rfl⟩
      obtain ⟨c1, c2, c3, c4⟩ := procNeighbors_spec g root u d other hd1
        (g.getConnections u) vis dep nq hns ⟨hinv1, hinv2⟩ hnq
      rw [hpr] at c1 c2 c3 c4
      rcases m with _ | w
      · have hstep : expandRest g (u :: rest) vis dep nq other =
            expandRest g rest v2 d2 nq2 other := by
          simp only [expandRest]
          rw [if_neg hg]
          simp only [hgd]
          rw [hpr]
        rw [hstep]
        exact ih v2 d2 nq2 c1
          (fun v hv => c3 v (hq v (List.mem_cons_of_mem u hv))) c2
      · have hstep : expandRest g (u :: rest) vis dep nq other =
            { meeting := some w, queue := rest, visited := v2, depths := d2 } := by
          simp only [expandRest]
          rw [if_neg hg]
          simp only [hgd]
          rw [hpr]
        rw [hstep]
        refine ⟨c1, ?_, ?_⟩
        · intro v hv
          exact c3 v (hq v (List.mem_cons_of_mem u hv))
        · intro w' hw'
          have hww : w = w' := Option.some.inj hw'
          subst hww
          obtain ⟨ho, hrw⟩ := c4 w rfl
          exact ⟨ho, reachWithin_mono g root hd1 w hrw⟩

lemma bfsLoop_found_reach (g : GraphIntf) (s t : String) :
    ∀ (fuel : Nat) (fq bq : List String)
      (fv bv : List (String × Option String)) (fd bd : List (String × Nat))
      (nodes : Nat),
    SideInv g s fv fd → SideInv g t bv bd →
    (∀ v ∈ fq, containsKey fv v = true) →
    (∀ v ∈ bq, containsKey bv v = true) →
    (bfsLoop g fuel fq bq fv bv fd bd nodes).found = true →
    ∃ w, w ∈ reachWithin g 3 s ∧ w ∈ reachWithin g 3 t := by
  intro fuel
  induction fuel with
  | zero =>
    intro fq bq fv bv fd bd nodes hf hb hqf hqb h
    rw [bfsLoop] at h
    by_cases h1 : (fq.isEmpty && bq.isEmpty) = true
    · rw [if_pos h1] at h
      simp [mkPathResult] at h
    rw [if_neg h1] at h
    by_cases h2 : fq.length ≤ bq.length
    · rw [if_pos h2] at h
      cases hm : (expandFrontier g fq fv fd bv).meeting with
      | some m =>
        obtain ⟨_, _, c3⟩ := expandRest_spec g s bv fq fv fd [] hf hqf
          (by intro v hv; cases hv)
        have hm' : (expandRest g fq fv fd [] bv).meeting = some m := hm
        obtain ⟨hbw, hrs⟩ := c3 m hm'
        obtain ⟨_, hb2⟩ := hb
        obtain ⟨d, _, hd3, hrt⟩ := hb2 m hbw
        exact ⟨m, hrs, reachWithin_mono g t hd3 m hrt⟩
      | none =>
        simp only [hm] at h
        simp [mkPathResult] at h
    · rw [if_neg h2] at h
      cases hm : (expandFrontier g bq bv bd fv).meeting with
      | some m =>
        obtain ⟨_, _, c3⟩ := expandRest_spec g t fv bq bv bd [] hb hqb
          (by intro v hv; cases hv)
        have hm' : (expandRest g bq bv bd [] fv).meeting = some m := hm
        obtain ⟨hfw, hrt⟩ := c3 m hm'
        obtain ⟨_, hf2⟩ := hf
        obtain ⟨d, _, hd3, hrs⟩ := hf2 m hfw
        exact ⟨m, reachWithin_mono g s hd3 m hrs, hrt⟩
      | none =>
        simp only [hm] at h
        simp [mkPathResult] at h
  | succ fuel ih =>
    intro fq bq fv bv fd bd nodes hf hb hqf hqb h
    rw [bfsLoop] at h
    by_cases h1 : (fq.isEmpty && bq.isEmpty) = true
    · rw [if_pos h1] at h
      simp [mkPathResult] at h
    rw [if_neg h1] at h
    by_cases h2 : fq.length ≤ bq.length
    · rw [if_pos h2] at h
      cases hm : (expandFrontier g fq fv fd bv).meeting with
      | some m =>
        obtain ⟨_, _, c3⟩ := expandRest_spec g s bv fq fv fd [] hf hqf
          (by intro v hv; cases hv)
        have hm' : (expandRest g fq fv fd [] bv).meeting = some m := hm
        obtain ⟨hbw, hrs⟩ := c3 m hm'
        obtain ⟨_, hb2⟩ := hb
        obtain ⟨d, _, hd3, hrt⟩ := hb2 m hbw
        exact ⟨m, hrs, reachWithin_mono g t hd3 m hrt⟩
      | none =>
        simp only [hm] at h
        obtain ⟨c1, c2, _⟩ := expandRest_spec g s bv fq fv fd [] hf hqf
          (by intro v hv; cases hv)
        exact ih (expandFrontier g fq fv fd bv).queue bq
          (expandFrontier g fq fv fd bv).visited bv
          (expandFrontier g fq fv fd bv).depths bd _ c1 hb c2 hqb h
    · rw [if_neg h2] at h
      cases hm : (expandFrontier g bq bv bd fv).meeting with
      | some m =>
        obtain ⟨_, _, c3⟩ := expandRest_spec g t fv bq bv bd [] hb hqb
          (by intro v hv; cases hv)
        have hm' : (expandRest g bq bv bd [] fv).meeting = some m := hm
        obtain ⟨hfw, hrt⟩ := c3 m hm'
        obtain ⟨_, hf2⟩ := hf
        obtain ⟨d, _, hd3, hrs⟩ := hf2 m hfw
        exact ⟨m, reachWithin_mono g s hd3 m hrs, hrt⟩
      | none =>
        simp only [hm] at h
        obtain ⟨c1, c2, _⟩ := expandRest_spec g t fv bq bv bd [] hb hqb
          (by intro v hv; cases hv)
        exact ih fq (expandFrontier g bq bv bd fv).queue fv
          (expandFrontier g bq bv bd fv).visited fd
          (expandFrontier g bq bv bd fv).depths _ hf c1 hqf c2 h

/-- C4 (amended): `find_shortest_path` is a total function (no exceptions),
and for every query with `start ≠ target`:
(a) a missing endpoint returns exactly the not-found record
    (`found = false`, `distance = -1`, `path = None`, zero nodes explored);
(b) when no vertex lies within `⌊max_depth/2⌋ = 3` adjacency steps of both
    endpoints, the result has `found = false`, `path = None`,
    `distance = -1`;
(c) in particular, for a graph with symmetric adjacency (invariant I1,
    which the graph database maintains), whenever no path of length at
    most `max_depth = 6` leads from start to target — i.e. the target is
    unreachable within the depth cap — the result has `found = false`,
    `path = None`, `distance = -1`;
(d) every not-found result, whether from a missing endpoint,
    unreachability, or exhausting the depth cap, has this same shape
    ("exhausting the depth cap is equivalent to unreachable").
(When `start == target` the self-check precedes the existence check; see
the counterexample.) -/
theorem find_shortest_path_failure_semantics (g : GraphIntf) (s t : String)
    (hst : s ≠ t) :
    ((g.userExists s = false ∨ g.userExists t = false) →
       findShortestPath g s t = mkPathResult none (-1) 0 false) ∧
    ((∀ w ∈ reachWithin g 3 s, w ∉ reachWithin g 3 t) →
       (findShortestPath g s t).found = false ∧
       (findShortestPath g s t).path = none ∧
       (findShortestPath g s t).distance = -1) ∧
    ((∀ u v, v ∈ g.getConnections u → u ∈ g.getConnections v) →
       t ∉ reachWithin g maxDepth s →
       (findShortestPath g s t).found = false ∧
       (findShortestPath g s t).path = none ∧
       (findShortestPath g s t).distance = -1) ∧
    ((findShortestPath g s t).found = false →
       (findShortestPath g s t).path = none ∧
       (findShortestPath g s t).distance = -1) := by
  have hshape : (findShortestPath g s t).found = false →
      (findShortestPath g s t).path = none ∧
      (findShortestPath g s t).distance = -1 := by
    intro h
    rw [findShortestPath] at h ⊢
    rw [if_neg hst] at h ⊢
    by_cases hex : (!g.userExists s || !g.userExists t) = true
    · rw [if_pos hex]
      exact ⟨rfl, rfl⟩
    · rw [if_neg hex] at h ⊢
      rcases bfsLoop_cases g maxDepth [s] [t] [(s, none)] [(t, none)]
          [(s, 0)] [(t, 0)] 0 with hfound | ⟨n, heq⟩
      · rw [hfound] at h
        exact absurd h (by simp)
      · rw [heq]
        exact ⟨rfl, rfl⟩
  have hmiss : (g.userExists s = false ∨ g.userExists t = false) →
      findShortestPath g s t = mkPathResult none (-1) 0 false := by
    intro h
    rw [findShortestPath, if_neg hst]
    have hex : (!g.userExists s || !g.userExists t) = true := by
      rcases h with h | h <;> simp [h]
    rw [if_pos hex]
  have hinitS : SideInv g s [(s, none)] [(s, 0)] := by
    constructor
    · intro v hv
      have hvs : v = s := containsKey_single_elim _ _ _ hv
      subst hvs
      exact containsKey_single_self _ _
    · intro v hv
      have hvs : v = s := containsKey_single_elim _ _ _ hv
      subst hvs
      exact ⟨0, by simp [alookup], by omega, by simp [reachWithin]⟩
  have hinitT : SideInv g t [(t, none)] [(t, 0)] := by
    constructor
    · intro v hv
      have hvt : v = t := containsKey_single_elim _ _ _ hv
      subst hvt
      exact containsKey_single_self _ _
    · intro v hv
      have hvt : v = t := containsKey_single_elim _ _ _ hv
      subst hvt
      exact ⟨0, by simp [alookup], by omega, by simp [reachWithin]⟩
  have hdisj : (∀ w ∈ reachWithin g 3 s, w ∉ reachWithin g 3 t) →
      (findShortestPath g s t).found = false := by
    intro hd
    rw [findShortestPath, if_neg hst]
    by_cases hex : (!g.userExists s || !g.userExists t) = true
    · rw [if_pos hex]
      rfl
    · rw [if_neg hex]
      cases hb2 : (bfsLoop g maxDepth [s] [t] [(s, none)] [(t, none)]
          [(s, 0)] [(t, 0)] 0).found
      · rfl
      · exfalso
        obtain ⟨w, hws, hwt⟩ := bfsLoop_found_reach g s t maxDepth [s] [t]
          [(s, none)] [(t, none)] [(s, 0)] [(t, 0)] 0 hinitS hinitT
          (by
            intro v hv
            have hvs : v = s := by simpa using hv
            subst hvs
            exact containsKey_single_self _ _)
          (by
            intro v hv
            have hvt : v = t := by simpa using hv
            subst hvt
            exact containsKey_single_self _ _)
          hb2
        exact hd w hws hwt
  refine ⟨hmiss, fun hd => ?_, fun hsym hnr => ?_, hshape⟩
  · have hf := hdisj hd
    exact ⟨hf, hshape hf⟩
  · have hd : ∀ w ∈ reachWithin g 3 s, w ∉ reachWithin g 3 t := by
      intro w hws hwt
      have htw : t ∈ reachWithin g 3 w := reachWithin_symm g hsym 3 t w hwt
      have h6 := reachWithin_trans g s 3 3 w t hws htw
      have he : (3 : Nat) + 3 = maxDepth := rfl
      rw [he] at h6
      exact hnr h6
    have hf := hdisj hd
    exact ⟨hf, hshape hf⟩

/-- Witness for the amended C4 theorem at concrete inputs: a missing
endpoint on scenario A gives the not-found record; the eight-user chain,
whose radius-3 neighbourhoods of `u1` and `u8` are disjoint, gives
`found = false`; and on the provably symmetric `chainSym`, where `u8` is
not within `max_depth = 6` steps of `u1`, the query also fails. -/
theorem find_shortest_path_failure_semantics_witness :
    findShortestPath scenarioA "u1" "zz" = mkPathResult none (-1) 0 false ∧
    (findShortestPath scenarioC "u1" "u8").found = false ∧
    (findShortestPath chainSym "u1" "u8").found = false := by
  refine ⟨?_, ?_, ?_⟩
  · exact (find_shortest_path_failure_semantics scenarioA "u1" "zz"
      (by decide)).1 (Or.inr (by decide))
  · exact ((find_shortest_path_failure_semantics scenarioC "u1" "u8"
      (by decide)).2.1 (by decide)).1
  · exact ((find_shortest_path_failure_semantics chainSym "u1" "u8"
      (by decide)).2.2.1 (symGraph_symm chainEdges) (by decide)).1

end SocialPath
